import Mathlib

/-!
Verification of the CS2 gamemode-framework core (event bus, checkpoint
manager, plugin registry/ordering, lifecycle manager, event dispatcher)
against its natural-language specification.

The TypeScript sources are shallowly embedded: JavaScript values are the
`JSVal` type together with an explicit heap of objects (`Heap`), so that
reference identity, sharing and cycles are representable; stateful code is
explicit state passing; recursion that walks the object graph carries fuel,
with totality proved separately.
-/

namespace GamemodeFramework

/-! ## JavaScript values and the object heap

A JS value is either a primitive, a function, or a reference into a heap of
objects.  An object is a plain record of string-keyed fields or an array.
This mirrors what the runtime of `state-utils.ts` manipulates.
-/

/-- A JavaScript value: primitives, functions, or a reference to a heap
object.  Functions are a leaf because `validateStateShape` only ever asks
`typeof v === "function"` about them. -/
inductive JSVal where
  | undef : JSVal
  | nullV : JSVal
  | boolV (b : Bool) : JSVal
  | numV (n : Int) : JSVal
  | strV (s : String) : JSVal
  | funcV : JSVal
  | refV (a : Nat) : JSVal
deriving DecidableEq, Repr

/-- A heap object: an array of values or a record of string-keyed fields
(field order is JS insertion order, as visited by `Object.entries`). -/
inductive HObj where
  | arrO (elems : List JSVal) : HObj
  | recO (fields : List (String × JSVal)) : HObj
deriving DecidableEq, Repr

/-- The object heap: addresses are positions in the list. -/
abbrev Heap := List HObj

/-- Heap lookup; a dangling address (which real JS references cannot have)
defaults to an empty record. -/
def hGet (h : Heap) (a : Nat) : HObj := h.getD a (HObj.recO [])

/-- The JS `typeof` operator on our value model. -/
def typeofStr : JSVal → String
  | JSVal.undef => "undefined"
  | JSVal.nullV => "object"
  | JSVal.boolV _ => "boolean"
  | JSVal.numV _ => "number"
  | JSVal.strV _ => "string"
  | JSVal.funcV => "function"
  | JSVal.refV _ => "object"

/-- `state-utils.ts` line 193: `"IsValid" in value && typeof value.IsValid
=== "function"` — an object is treated as a live entity handle when it has
an `IsValid` field holding a function. -/
def hasIsValidMethod : HObj → Bool
  | HObj.arrO _ => false
  | HObj.recO fields =>
    match fields.lookup "IsValid" with
    | some JSVal.funcV => true
    | _ => false

/-- The list of `(path, value)` children the walk visits for an object:
array elements with `path[i]` paths, record fields with `path.key` paths
(`state-utils.ts` lines 201-209). -/
def childEntries (path : String) : HObj → List (String × JSVal)
  | HObj.arrO elems =>
    elems.enum.map (fun p => (path ++ "[" ++ toString p.1 ++ "]", p.2))
  | HObj.recO fields =>
    fields.map (fun kv => (path ++ "." ++ kv.1, kv.2))

/-! ## `validateStateShape` (`state-utils.ts` lines 159-223)

`checkValue` is the recursive walk; `seen` models the `WeakSet` of visited
objects (a list of visited heap addresses, threaded through the whole
walk).  The walk carries fuel and returns `none` on exhaustion; fuel
sufficiency is proved below (`checkValue_total`).
-/

mutual

/-- One step of the walk of `state-utils.ts` `checkValue`: returns the
issues pushed (in order) and the updated `seen` set. -/
def checkValue (h : Heap) : Nat → JSVal → String → List Nat →
    Option (List String × List Nat)
  | fuel, v, path, seen =>
    match v with
    | JSVal.undef => some ([], seen)
    | JSVal.nullV => some ([], seen)
    | JSVal.boolV _ => some ([], seen)
    | JSVal.numV _ => some ([], seen)
    | JSVal.strV _ => some ([], seen)
    | JSVal.funcV =>
      some (["Function at " ++ path ++ " - functions cannot be serialized"], seen)
    | JSVal.refV a =>
      match fuel with
      | 0 => none
      | fuel + 1 =>
        if seen.contains a then
          some (["Circular reference at " ++ path], seen)
        else
          let seen1 := a :: seen
          let obj := hGet h a
          if hasIsValidMethod obj then
            some (["Entity reference at " ++ path ++
              " - store entity names as strings instead"], seen1)
          else
            checkChildren h fuel (childEntries path obj) seen1
termination_by fuel _ _ _ => (fuel, 0)

/-- Sequential walk of an object's children, threading the `seen` set. -/
def checkChildren (h : Heap) : Nat → List (String × JSVal) → List Nat →
    Option (List String × List Nat)
  | _, [], seen => some ([], seen)
  | fuel, pv :: rest, seen =>
    match checkValue h fuel pv.2 pv.1 seen with
    | none => none
    | some (is1, seen1) =>
      match checkChildren h fuel rest seen1 with
      | none => none
      | some (is2, seen2) => some (is1 ++ is2, seen2)
termination_by fuel l _ => (fuel, l.length + 1)

end

/-- Result record of `validateStateShape`. -/
structure ValidationResult where
  valid : Bool
  error : Option String
deriving DecidableEq, Repr

/-- `validateStateShape(state, featureName)`: rejects non-objects outright,
then walks the object graph collecting issues; `none` only on fuel
exhaustion, which `validateStateShape_total` rules out. -/
def validateStateShape (h : Heap) (state : JSVal) (_featureName : String) :
    Option ValidationResult :=
  if typeofStr state ≠ "object" ∨ state = JSVal.nullV then
    some { valid := false,
           error := some ("State must be an object, got " ++ typeofStr state) }
  else
    match checkValue h (h.length + 1) state "state" [] with
    | none => none
    | some (issues, _) =>
      if issues.isEmpty then some { valid := true, error := none }
      else some { valid := false, error := some (String.intercalate "; " issues) }

/-! ### Totality of the walk

The `WeakSet` of visited addresses guarantees termination: once an address
is recorded it is never walked again, so the number of unvisited heap
addresses strictly decreases on every descent into an object.
-/

def unvisited (h : Heap) (seen : List Nat) : Nat :=
  (List.range h.length).countP (fun a => !(seen.contains a))

theorem countP_lt_countP {l : List Nat} {p q : Nat → Bool}
    (hpq : ∀ x, p x = true → q x = true) (a : Nat) (ha : a ∈ l)
    (hqa : q a = true) (hpa : p a = false) : l.countP p < l.countP q := by
  induction l with
  | nil => cases ha
  | cons b t ih =>
    rw [List.countP_cons, List.countP_cons]
    rcases List.mem_cons.mp ha with hb | ht
    · subst hb
      rw [hpa, hqa]
      simpa using Nat.lt_succ_of_le (List.countP_mono_left (fun x _ => hpq x))
    · have hlt := ih ht
      have : (if p b = true then 1 else 0) ≤ (if q b = true then 1 else 0) := by
        by_cases hb : p b = true
        · simp [hb, hpq b hb]
        · simp [hb]
      omega

theorem unvisited_anti (h : Heap) {seen seen2 : List Nat}
    (hsub : seen ⊆ seen2) : unvisited h seen2 ≤ unvisited h seen := by
  apply List.countP_mono_left
  intro x _ hx
  simp only [Bool.not_eq_true'] at hx ⊢
  have : x ∉ seen2 := by simpa using hx
  have : x ∉ seen := fun hm => this (hsub hm)
  simpa using this

theorem unvisited_cons_lt (h : Heap) {a : Nat} {seen : List Nat}
    (hlen : a < h.length) (hni : seen.contains a = false) :
    unvisited h (a :: seen) < unvisited h seen := by
  refine countP_lt_countP ?_ a (List.mem_range.mpr hlen) ?_ ?_
  · intro x hx
    simp only [Bool.not_eq_true'] at hx ⊢
    have hx2 : x ∉ a :: seen := by simpa using hx
    have : x ∉ seen := fun hm => hx2 (List.mem_cons_of_mem a hm)
    simpa using this
  · simpa using hni
  · simp

theorem checkValue_zero_seen (h : Heap) {v : JSVal} {path : String}
    {seen : List Nat} {is : List String} {s2 : List Nat}
    (heq : checkValue h 0 v path seen = some (is, s2)) : s2 = seen := by
  cases v <;> rw [checkValue] at heq <;> simp at heq <;> exact heq.2.symm

theorem check_seen_subset (h : Heap) : ∀ fuel : Nat,
    (∀ v path seen is s2, checkValue h fuel v path seen = some (is, s2) →
      seen ⊆ s2) ∧
    (∀ l seen is s2, checkChildren h fuel l seen = some (is, s2) → seen ⊆ s2) := by
  intro fuel
  induction fuel with
  | zero =>
    constructor
    · intro v path seen is s2 heq
      rw [checkValue_zero_seen h heq]
      exact fun _ hx => hx
    · intro l seen is s2 heq
      induction l generalizing seen is s2 with
      | nil =>
        rw [checkChildren] at heq; simp at heq
        rw [heq.2.symm]
        exact fun _ hx => hx
      | cons pv rest ihl =>
        rw [checkChildren] at heq
        rcases hcv : checkValue h 0 pv.2 pv.1 seen with _ | ⟨is1, seen1⟩ <;>
          rw [hcv] at heq <;> dsimp only at heq
        · cases heq
        · rcases hcc : checkChildren h 0 rest seen1 with _ | ⟨is2, seen2⟩ <;>
            rw [hcc] at heq <;> dsimp only at heq
          · cases heq
          · simp at heq
            obtain ⟨-, h2⟩ := heq
            rw [← h2, ← checkValue_zero_seen h hcv]
            exact ihl seen1 is2 seen2 hcc
  | succ f ih =>
    obtain ⟨-, ihc⟩ := ih
    have hv : ∀ v path seen is s2, checkValue h (f+1) v path seen = some (is, s2) →
        seen ⊆ s2 := by
      intro v path seen is s2 heq
      cases v <;> rw [checkValue] at heq
      case refV a =>
        by_cases hc : seen.contains a = true
        · rw [if_pos hc] at heq
          have hsnd : seen = s2 := congrArg Prod.snd (Option.some.inj heq)
          subst hsnd
          exact fun _ hx => hx
        · rw [if_neg hc] at heq
          by_cases hiv : hasIsValidMethod (hGet h a) = true
          · rw [if_pos hiv] at heq
            have hsnd : a :: seen = s2 := congrArg Prod.snd (Option.some.inj heq)
            rw [← hsnd]
            exact List.subset_cons_self a seen
          · rw [if_neg hiv] at heq
            exact (List.subset_cons_self a seen).trans (ihc _ _ _ _ heq)
      all_goals
        (have hsnd : seen = s2 := congrArg Prod.snd (Option.some.inj heq)
         subst hsnd
         exact fun _ hx => hx)
    refine ⟨hv, ?_⟩
    intro l seen is s2 heq
    induction l generalizing seen is s2 with
    | nil =>
      rw [checkChildren] at heq; simp at heq
      rw [heq.2.symm]
      exact fun _ hx => hx
    | cons pv rest ihl =>
      rw [checkChildren] at heq
      rcases hcv : checkValue h (f+1) pv.2 pv.1 seen with _ | ⟨is1, seen1⟩ <;>
        rw [hcv] at heq <;> dsimp only at heq
      · cases heq
      · rcases hcc : checkChildren h (f+1) rest seen1 with _ | ⟨is2, seen2⟩ <;>
          rw [hcc] at heq <;> dsimp only at heq
        · cases heq
        · simp at heq
          obtain ⟨-, h2⟩ := heq
          rw [← h2]
          exact (hv _ _ _ _ _ hcv).trans (ihl _ _ _ hcc)

theorem check_total (h : Heap) : ∀ fuel : Nat,
    (∀ v path seen, unvisited h seen < fuel → (checkValue h fuel v path seen).isSome) ∧
    (∀ l seen, unvisited h seen < fuel → (checkChildren h fuel l seen).isSome) := by
  intro fuel
  induction fuel with
  | zero =>
    exact ⟨fun _ _ _ hlt => absurd hlt (Nat.not_lt_zero _),
           fun _ _ hlt => absurd hlt (Nat.not_lt_zero _)⟩
  | succ f ih =>
    obtain ⟨-, ihc⟩ := ih
    have hv : ∀ v path seen, unvisited h seen < f + 1 →
        (checkValue h (f+1) v path seen).isSome := by
      intro v path seen hlt
      cases v <;> rw [checkValue]
      case refV a =>
        by_cases hc : seen.contains a = true
        · rw [if_pos hc]; simp
        · rw [if_neg hc]
          by_cases hiv : hasIsValidMethod (hGet h a) = true
          · rw [if_pos hiv]; simp
          · rw [if_neg hiv]
            by_cases ha : a < h.length
            · apply ihc
              have := unvisited_cons_lt h ha (Bool.eq_false_iff.mpr hc)
              omega
            · have hdef : hGet h a = HObj.recO [] := by
                unfold hGet
                exact List.getD_eq_default _ _ (Nat.le_of_not_lt ha)
              rw [hdef]
              rw [show childEntries path (HObj.recO []) = [] from rfl]
              rw [checkChildren]; simp
      all_goals simp
    refine ⟨hv, ?_⟩
    intro l
    induction l with
    | nil => intro seen _; rw [checkChildren]; simp
    | cons pv rest ihl =>
      intro seen hlt
      rw [checkChildren]
      have h1 := hv pv.2 pv.1 seen hlt
      rcases hcv : checkValue h (f+1) pv.2 pv.1 seen with _ | ⟨is1, seen1⟩
      · rw [hcv] at h1; simp at h1
      · have hsub := (check_seen_subset h (f+1)).1 _ _ _ _ _ hcv
        have hlt1 : unvisited h seen1 < f + 1 :=
          lt_of_le_of_lt (unvisited_anti h hsub) hlt
        have h2 := ihl seen1 hlt1
        rcases hcc : checkChildren h (f+1) rest seen1 with _ | ⟨is2, seen2⟩
        · rw [hcc] at h2; simp at h2
        · dsimp only; rw [hcc]; simp

theorem unvisited_nil (h : Heap) : unvisited h [] = h.length := by
  unfold unvisited
  rw [show (fun a => !(List.contains [] a)) = (fun _ : Nat => true) by
    funext a; simp]
  rw [List.countP_true, List.length_range]

theorem validateStateShape_isSome (h : Heap) (state : JSVal) (fname : String) :
    (validateStateShape h state fname).isSome := by
  unfold validateStateShape
  by_cases hcond : typeofStr state ≠ "object" ∨ state = JSVal.nullV
  · rw [if_pos hcond]; simp
  · rw [if_neg hcond]
    have htot := (check_total h (h.length + 1)).1 state "state" []
      (by rw [unvisited_nil]; omega)
    rcases hcv : checkValue h (h.length + 1) state "state" [] with _ | ⟨issues, s2⟩
    · rw [hcv] at htot; simp at htot
    · dsimp only
      by_cases hi : issues.isEmpty
      · rw [if_pos hi]; simp
      · rw [if_neg hi]; simp

/-- C10: `validateStateShape` is total: for every heap and every input value
— including object graphs with reference cycles and objects reachable
through multiple paths — the recursive walk terminates and returns a
validation result, because an address already recorded in the `seen` set is
never walked again.  (Internal fuel `h.length + 1` always suffices.) -/
theorem c10_validateStateShape_total (h : Heap) (state : JSVal) (fname : String) :
    (validateStateShape h state fname).isSome :=
  validateStateShape_isSome h state fname


/-! ## Claim C7: what `validateStateShape` flags

The walk records every visited object in the `WeakSet` and flags *any*
revisit as `Circular reference` — also when the object is merely reachable
through two different paths without any true cycle.  The predicates below
give decidable meaning to "has a reference cycle", "contains a function
value" and "contains a live handle" for a whole heap.
-/

def refsOfObj : HObj → List Nat
  | HObj.arrO elems => elems.filterMap (fun v => match v with
      | JSVal.refV a => some a
      | _ => none)
  | HObj.recO fields => fields.filterMap (fun kv => match kv.2 with
      | JSVal.refV a => some a
      | _ => none)

def reachesWithin (h : Heap) : Nat → Nat → Nat → Bool
  | 0, _, _ => false
  | n + 1, a, b =>
    (refsOfObj (hGet h a)).any (fun c => c == b || reachesWithin h n c b)

def hasRefCycle (h : Heap) : Bool :=
  (List.range h.length).any (fun a => reachesWithin h h.length a a)

def valsOfObj : HObj → List JSVal
  | HObj.arrO elems => elems
  | HObj.recO fields => fields.map Prod.snd

def heapHasFuncVal (h : Heap) (root : JSVal) : Bool :=
  (match root with | JSVal.funcV => true | _ => false) ||
  h.any (fun o => (valsOfObj o).any (fun v => match v with
    | JSVal.funcV => true
    | _ => false))

def heapHasHandle (h : Heap) : Bool := h.any hasIsValidMethod

/-- The concrete counterexample heap: address 0 is an empty object shared
by the two fields of address 1 — an acyclic DAG. -/
def hEx : Heap := [HObj.recO [], HObj.recO [("a", JSVal.refV 0), ("b", JSVal.refV 0)]]


/-! ### Tree-shaped plain data values validate cleanly

`JTree` is a pure JSON-like data tree (no functions, no sharing, no
handles); `flat` lays such a tree out in a heap, children first.  The walk
lemma below shows `checkValue` reports no issues on any such layout.
-/

inductive JTree where
  | jnull : JTree
  | jbool (b : Bool) : JTree
  | jnum (n : Int) : JTree
  | jstr (s : String) : JTree
  | jarr (ts : List JTree) : JTree
  | jobj (fs : List (String × JTree)) : JTree

mutual
def flat : JTree → Nat → List HObj × JSVal
  | JTree.jnull, _ => ([], JSVal.nullV)
  | JTree.jbool b, _ => ([], JSVal.boolV b)
  | JTree.jnum n, _ => ([], JSVal.numV n)
  | JTree.jstr s, _ => ([], JSVal.strV s)
  | JTree.jarr ts, base =>
    let p := flatList ts base
    (p.1 ++ [HObj.arrO p.2], JSVal.refV (base + p.1.length))
  | JTree.jobj fs, base =>
    let p := flatFields fs base
    (p.1 ++ [HObj.recO ((fs.map Prod.fst).zip p.2)], JSVal.refV (base + p.1.length))

def flatList : List JTree → Nat → List HObj × List JSVal
  | [], _ => ([], [])
  | t :: ts, base =>
    let p1 := flat t base
    let p2 := flatList ts (base + p1.1.length)
    (p1.1 ++ p2.1, p1.2 :: p2.2)

def flatFields : List (String × JTree) → Nat → List HObj × List JSVal
  | [], _ => ([], [])
  | kt :: fs, base =>
    let p1 := flat kt.2 base
    let p2 := flatFields fs (base + p1.1.length)
    (p1.1 ++ p2.1, p1.2 :: p2.2)
end

mutual
def sizeT : JTree → Nat
  | JTree.jnull => 0
  | JTree.jbool _ => 0
  | JTree.jnum _ => 0
  | JTree.jstr _ => 0
  | JTree.jarr ts => sizeL ts + 1
  | JTree.jobj fs => sizeF fs + 1

def sizeL : List JTree → Nat
  | [] => 0
  | t :: ts => sizeT t + sizeL ts

def sizeF : List (String × JTree) → Nat
  | [] => 0
  | kt :: fs => sizeT kt.2 + sizeF fs
end

mutual
theorem flat_fst_length : ∀ (t : JTree) (base : Nat), (flat t base).1.length = sizeT t
  | JTree.jnull, _ => by simp [flat, sizeT]
  | JTree.jbool b, _ => by simp [flat, sizeT]
  | JTree.jnum n, _ => by simp [flat, sizeT]
  | JTree.jstr s, _ => by simp [flat, sizeT]
  | JTree.jarr ts, base => by
    simp [flat, sizeT, flatList_fst_length ts base]
  | JTree.jobj fs, base => by
    simp [flat, sizeT, flatFields_fst_length fs base]

theorem flatList_fst_length : ∀ (ts : List JTree) (base : Nat),
    (flatList ts base).1.length = sizeL ts
  | [], _ => by simp [flatList, sizeL]
  | t :: ts, base => by
    simp [flatList, sizeL, flat_fst_length t base,
      flatList_fst_length ts (base + (flat t base).1.length),
      flatList_fst_length ts (base + sizeT t)]

theorem flatFields_fst_length : ∀ (fs : List (String × JTree)) (base : Nat),
    (flatFields fs base).1.length = sizeF fs
  | [], _ => by simp [flatFields, sizeF]
  | kt :: fs, base => by
    simp [flatFields, sizeF, flat_fst_length kt.2 base,
      flatFields_fst_length fs (base + (flat kt.2 base).1.length),
      flatFields_fst_length fs (base + sizeT kt.2)]
end

theorem flatList_snd_length (ts : List JTree) : ∀ (base : Nat),
    (flatList ts base).2.length = ts.length := by
  induction ts with
  | nil => intro base; simp [flatList]
  | cons t ts ih => intro base; simp [flatList, ih]

theorem flatFields_snd_length (fs : List (String × JTree)) : ∀ (base : Nat),
    (flatFields fs base).2.length = fs.length := by
  induction fs with
  | nil => intro base; simp [flatFields]
  | cons kt fs ih => intro base; simp [flatFields, ih]

theorem lookup_mem {α β : Type} [BEq α] {k : α} {v : β} :
    ∀ {l : List (α × β)}, List.lookup k l = some v → (k, v) ∈ l ∨ v ∈ l.map Prod.snd := by
  intro l
  induction l with
  | nil => intro h; cases h
  | cons kv rest ih =>
    intro h
    rw [List.lookup] at h
    cases hk : (k == kv.1) with
    | true =>
      rw [hk] at h
      dsimp only at h
      right
      simp [← Option.some.inj h]
    | false =>
      rw [hk] at h
      dsimp only at h
      rcases ih h with h1 | h2
      · left; exact List.mem_cons_of_mem _ h1
      · right; simp [h2]

theorem lookup_mem_pair {α β : Type} [BEq α] [LawfulBEq α] {k : α} {v : β} :
    ∀ {l : List (α × β)}, List.lookup k l = some v → (k, v) ∈ l := by
  intro l
  induction l with
  | nil => intro h; cases h
  | cons kv rest ih =>
    intro h
    rw [List.lookup] at h
    cases hk : (k == kv.1) with
    | true =>
      rw [hk] at h
      dsimp only at h
      have hkeq : k = kv.1 := eq_of_beq hk
      have hveq : kv.2 = v := Option.some.inj h
      have hp : (k, v) = kv := by rw [hkeq, ← hveq]
      rw [hp]
      exact List.mem_cons_self _ _
    | false =>
      rw [hk] at h
      dsimp only at h
      exact List.mem_cons_of_mem _ (ih h)

theorem hGet_middle (A C : Heap) (o : HObj) (B : Heap) :
    hGet (A ++ (C ++ (o :: B))) (A.length + C.length) = o := by
  unfold hGet
  rw [List.getD_eq_getElem?_getD]
  rw [List.getElem?_append_right (by omega : A.length ≤ A.length + C.length)]
  have h1 : A.length + C.length - A.length = C.length := by omega
  rw [h1]
  rw [List.getElem?_append_right (by omega : C.length ≤ C.length)]
  have h2 : C.length - C.length = 0 := by omega
  rw [h2]
  simp

mutual

theorem flat_snd_ne_func : ∀ (t : JTree) (base : Nat), (flat t base).2 ≠ JSVal.funcV
  | JTree.jnull, _ => by simp [flat]
  | JTree.jbool b, _ => by simp [flat]
  | JTree.jnum n, _ => by simp [flat]
  | JTree.jstr s, _ => by simp [flat]
  | JTree.jarr ts, base => by simp [flat]
  | JTree.jobj fs, base => by simp [flat]

theorem flatList_snd_ne_func : ∀ (ts : List JTree) (base : Nat) (v : JSVal),
    v ∈ (flatList ts base).2 → v ≠ JSVal.funcV
  | [], _, v => by simp [flatList]
  | t :: ts, base, v => by
    intro hv
    rw [flatList] at hv
    dsimp only at hv
    rcases List.mem_cons.mp hv with h1 | h2
    · rw [h1]; exact flat_snd_ne_func t base
    · exact flatList_snd_ne_func ts (base + (flat t base).1.length) v h2

theorem flatFields_snd_ne_func : ∀ (fs : List (String × JTree)) (base : Nat) (v : JSVal),
    v ∈ (flatFields fs base).2 → v ≠ JSVal.funcV
  | [], _, v => by simp [flatFields]
  | kt :: fs, base, v => by
    intro hv
    rw [flatFields] at hv
    dsimp only at hv
    rcases List.mem_cons.mp hv with h1 | h2
    · rw [h1]; exact flat_snd_ne_func kt.2 base
    · exact flatFields_snd_ne_func fs (base + (flat kt.2 base).1.length) v h2

end


mutual

theorem walkT : ∀ (t : JTree) (h : Heap) (A B : Heap) (path : String)
    (seen : List Nat) (fuel : Nat),
    h = A ++ (flat t A.length).1 ++ B →
    sizeT t < fuel →
    (∀ x, A.length ≤ x → x < A.length + sizeT t → x ∉ seen) →
    ∃ s2, checkValue h fuel (flat t A.length).2 path seen = some ([], s2) ∧
      ∀ x, x ∈ s2 ↔ (A.length ≤ x ∧ x < A.length + sizeT t) ∨ x ∈ seen
  | JTree.jnull, h, A, B, path, seen, fuel => by
    intro hh hfuel hdisj
    have hsz : sizeT JTree.jnull = 0 := by rw [sizeT]
    refine ⟨seen, by rw [flat]; dsimp only; rw [checkValue], ?_⟩
    intro x
    constructor
    · exact fun hx => Or.inr hx
    · rintro (⟨h1, h2⟩ | hx)
      · rw [hsz] at h2; omega
      · exact hx
  | JTree.jbool b, h, A, B, path, seen, fuel => by
    intro hh hfuel hdisj
    have hsz : sizeT (JTree.jbool b) = 0 := by rw [sizeT]
    refine ⟨seen, by rw [flat]; dsimp only; rw [checkValue], ?_⟩
    intro x
    constructor
    · exact fun hx => Or.inr hx
    · rintro (⟨h1, h2⟩ | hx)
      · rw [hsz] at h2; omega
      · exact hx
  | JTree.jnum n, h, A, B, path, seen, fuel => by
    intro hh hfuel hdisj
    have hsz : sizeT (JTree.jnum n) = 0 := by rw [sizeT]
    refine ⟨seen, by rw [flat]; dsimp only; rw [checkValue], ?_⟩
    intro x
    constructor
    · exact fun hx => Or.inr hx
    · rintro (⟨h1, h2⟩ | hx)
      · rw [hsz] at h2; omega
      · exact hx
  | JTree.jstr s, h, A, B, path, seen, fuel => by
    intro hh hfuel hdisj
    have hsz : sizeT (JTree.jstr s) = 0 := by rw [sizeT]
    refine ⟨seen, by rw [flat]; dsimp only; rw [checkValue], ?_⟩
    intro x
    constructor
    · exact fun hx => Or.inr hx
    · rintro (⟨h1, h2⟩ | hx)
      · rw [hsz] at h2; omega
      · exact hx
  | JTree.jarr ts, h, A, B, path, seen, fuel => by
    intro hh hfuel hdisj
    rcases hfl : flatList ts A.length with ⟨C, vals⟩
    have hC : C.length = sizeL ts := by
      have := flatList_fst_length ts A.length
      rw [hfl] at this
      exact this
    have hft : flat (JTree.jarr ts) A.length =
        (C ++ [HObj.arrO vals], JSVal.refV (A.length + C.length)) := by
      rw [flat, hfl]
    have hsz : sizeT (JTree.jarr ts) = sizeL ts + 1 := by rw [sizeT]
    rw [hft] at hh
    dsimp only at hh
    rw [hft]
    dsimp only
    rw [hsz] at hfuel hdisj ⊢
    cases fuel with
    | zero => omega
    | succ f =>
      have hown : (A.length + C.length) ∉ seen := by
        apply hdisj
        · omega
        · omega
      have hg : hGet h (A.length + C.length) = HObj.arrO vals := by
        rw [hh]
        rw [show A ++ (C ++ [HObj.arrO vals]) ++ B =
          A ++ (C ++ (HObj.arrO vals :: B)) by simp]
        exact hGet_middle A C (HObj.arrO vals) B
      have heval : checkValue h (f + 1) (JSVal.refV (A.length + C.length)) path seen
          = checkChildren h f (childEntries path (HObj.arrO vals))
              ((A.length + C.length) :: seen) := by
        rw [checkValue]
        rw [if_neg (by simpa using hown)]
        rw [hg]
        rw [if_neg (by simp [hasIsValidMethod])]
      have hkids := walkL ts h A (HObj.arrO vals :: B)
        (childEntries path (HObj.arrO vals))
        ((A.length + C.length) :: seen) f
        (by rw [hh, hfl]; simp [List.append_assoc])
        (by
          rw [hfl]
          dsimp only
          rw [childEntries]
          rw [List.map_map]
          rw [show (Prod.snd ∘ fun p : Nat × JSVal =>
            (path ++ "[" ++ toString p.1 ++ "]", p.2)) = Prod.snd from rfl]
          simp)
        (by omega)
        (by
          intro x hx1 hx2
          rw [List.mem_cons]
          rintro (hxo | hxs)
          · rw [hC] at hxo; omega
          · exact hdisj x hx1 (by omega) hxs)
      rcases hkids with ⟨s2, heq, hchar⟩
      refine ⟨s2, by rw [heval]; exact heq, ?_⟩
      intro x
      have hc := hchar x
      rw [List.mem_cons] at hc
      rw [hc]
      constructor
      · rintro (⟨h1, h2⟩ | hx | hx)
        · exact Or.inl ⟨h1, by omega⟩
        · exact Or.inl ⟨by omega, by omega⟩
        · exact Or.inr hx
      · rintro (⟨h1, h2⟩ | hx)
        · by_cases hxo : x < A.length + sizeL ts
          · exact Or.inl ⟨h1, hxo⟩
          · exact Or.inr (Or.inl (by rw [hC]; omega))
        · exact Or.inr (Or.inr hx)
  | JTree.jobj fs, h, A, B, path, seen, fuel => by
    intro hh hfuel hdisj
    rcases hfl : flatFields fs A.length with ⟨C, vals⟩
    have hC : C.length = sizeF fs := by
      have := flatFields_fst_length fs A.length
      rw [hfl] at this
      exact this
    have hvlen : vals.length = fs.length := by
      have := flatFields_snd_length fs A.length
      rw [hfl] at this
      exact this
    have hft : flat (JTree.jobj fs) A.length =
        (C ++ [HObj.recO ((fs.map Prod.fst).zip vals)],
         JSVal.refV (A.length + C.length)) := by
      rw [flat, hfl]
    have hsz : sizeT (JTree.jobj fs) = sizeF fs + 1 := by rw [sizeT]
    rw [hft] at hh
    dsimp only at hh
    rw [hft]
    dsimp only
    rw [hsz] at hfuel hdisj ⊢
    cases fuel with
    | zero => omega
    | succ f =>
      have hown : (A.length + C.length) ∉ seen := by
        apply hdisj
        · omega
        · omega
      have hg : hGet h (A.length + C.length) =
          HObj.recO ((fs.map Prod.fst).zip vals) := by
        rw [hh]
        rw [show A ++ (C ++ [HObj.recO ((fs.map Prod.fst).zip vals)]) ++ B =
          A ++ (C ++ (HObj.recO ((fs.map Prod.fst).zip vals) :: B)) by simp]
        exact hGet_middle A C _ B
      have hiv : hasIsValidMethod (HObj.recO ((fs.map Prod.fst).zip vals)) = false := by
        rw [hasIsValidMethod]
        rcases hlk : List.lookup "IsValid" ((fs.map Prod.fst).zip vals) with _ | v
        · rfl
        · have hmem := lookup_mem_pair hlk
          have hvm : v ∈ vals := (List.of_mem_zip hmem).2
          have hne : v ≠ JSVal.funcV := by
            apply flatFields_snd_ne_func fs A.length
            rw [hfl]
            exact hvm
          cases v <;> simp_all
      have heval : checkValue h (f + 1) (JSVal.refV (A.length + C.length)) path seen
          = checkChildren h f
              (childEntries path (HObj.recO ((fs.map Prod.fst).zip vals)))
              ((A.length + C.length) :: seen) := by
        rw [checkValue]
        rw [if_neg (by simpa using hown)]
        rw [hg]
        rw [if_neg (by simp [hiv])]
      have hkids := walkF fs h A (HObj.recO ((fs.map Prod.fst).zip vals) :: B)
        (childEntries path (HObj.recO ((fs.map Prod.fst).zip vals)))
        ((A.length + C.length) :: seen) f
        (by rw [hh, hfl]; simp [List.append_assoc])
        (by
          rw [hfl]
          dsimp only
          rw [childEntries]
          rw [List.map_map]
          rw [show (Prod.snd ∘ fun kv : String × JSVal =>
            (path ++ "." ++ kv.1, kv.2)) = Prod.snd from rfl]
          exact List.map_snd_zip _ _ (by simp [hvlen]))
        (by omega)
        (by
          intro x hx1 hx2
          rw [List.mem_cons]
          rintro (hxo | hxs)
          · rw [hC] at hxo; omega
          · exact hdisj x hx1 (by omega) hxs)
      rcases hkids with ⟨s2, heq, hchar⟩
      refine ⟨s2, by rw [heval]; exact heq, ?_⟩
      intro x
      have hc := hchar x
      rw [List.mem_cons] at hc
      rw [hc]
      constructor
      · rintro (⟨h1, h2⟩ | hx | hx)
        · exact Or.inl ⟨h1, by omega⟩
        · exact Or.inl ⟨by omega, by omega⟩
        · exact Or.inr hx
      · rintro (⟨h1, h2⟩ | hx)
        · by_cases hxo : x < A.length + sizeF fs
          · exact Or.inl ⟨h1, hxo⟩
          · exact Or.inr (Or.inl (by rw [hC]; omega))
        · exact Or.inr (Or.inr hx)

theorem walkL : ∀ (ts : List JTree) (h : Heap) (A B : Heap)
    (ps : List (String × JSVal)) (seen : List Nat) (fuel : Nat),
    h = A ++ (flatList ts A.length).1 ++ B →
    ps.map Prod.snd = (flatList ts A.length).2 →
    sizeL ts < fuel →
    (∀ x, A.length ≤ x → x < A.length + sizeL ts → x ∉ seen) →
    ∃ s2, checkChildren h fuel ps seen = some ([], s2) ∧
      ∀ x, x ∈ s2 ↔ (A.length ≤ x ∧ x < A.length + sizeL ts) ∨ x ∈ seen
  | [], h, A, B, ps, seen, fuel => by
    intro hh hsnd hfuel hdisj
    have hsz : sizeL ([] : List JTree) = 0 := by rw [sizeL]
    rw [flatList] at hsnd
    dsimp only at hsnd
    have hps : ps = [] := List.map_eq_nil_iff.mp hsnd
    subst hps
    refine ⟨seen, by rw [checkChildren], ?_⟩
    intro x
    constructor
    · exact fun hx => Or.inr hx
    · rintro (⟨h1, h2⟩ | hx)
      · rw [hsz] at h2; omega
      · exact hx
  | t :: ts, h, A, B, ps, seen, fuel => by
    intro hh hsnd hfuel hdisj
    rcases hf1 : flat t A.length with ⟨o1, v1⟩
    have ho1 : o1.length = sizeT t := by
      have := flat_fst_length t A.length
      rw [hf1] at this
      exact this
    rcases hf2 : flatList ts (A.length + o1.length) with ⟨orest, vrest⟩
    have hflcons : flatList (t :: ts) A.length = (o1 ++ orest, v1 :: vrest) := by
      rw [flatList, hf1]
      dsimp only
      rw [hf2]
    have hsz : sizeL (t :: ts) = sizeT t + sizeL ts := by rw [sizeL]
    rw [hflcons] at hh hsnd
    dsimp only at hh hsnd
    rw [hsz] at hfuel hdisj ⊢
    cases ps with
    | nil => simp at hsnd
    | cons p1 prest =>
      rw [List.map_cons] at hsnd
      injection hsnd with hp1 hprest
      have hone := walkT t h A (orest ++ B) p1.1 seen fuel
        (by rw [hh, hf1]; simp [List.append_assoc])
        (by omega)
        (by
          intro x hx1 hx2
          exact hdisj x hx1 (by omega))
      rw [hf1] at hone
      dsimp only at hone
      rcases hone with ⟨s1, heq1, hchar1⟩
      have hrest := walkL ts h (A ++ o1) B prest s1 fuel
        (by
          rw [List.length_append, hf2]
          dsimp only
          rw [hh]
          simp [List.append_assoc])
        (by
          rw [List.length_append, hf2]
          dsimp only
          exact hprest)
        (by omega)
        (by
          intro x hx1 hx2 hmem
          rw [List.length_append] at hx1 hx2
          rcases (hchar1 x).mp hmem with ⟨hr1, hr2⟩ | hxs
          · rw [ho1] at hx1; omega
          · exact hdisj x (by omega) (by rw [ho1] at hx2; omega) hxs)
      rcases hrest with ⟨s2, heq2, hchar2⟩
      have heval : checkChildren h fuel (p1 :: prest) seen = some ([], s2) := by
        rw [checkChildren, hp1, heq1]
        dsimp only
        rw [heq2]
        rfl
      refine ⟨s2, heval, ?_⟩
      intro x
      have hc2 := hchar2 x
      rw [List.length_append] at hc2
      rw [hc2]
      constructor
      · rintro (⟨h1, h2⟩ | hx)
        · rw [ho1] at h1 h2
          exact Or.inl ⟨by omega, by omega⟩
        · rcases (hchar1 x).mp hx with ⟨hr1, hr2⟩ | hxs
          · exact Or.inl ⟨hr1, by omega⟩
          · exact Or.inr hxs
      · rintro (⟨h1, h2⟩ | hx)
        · by_cases hxo : x < A.length + sizeT t
          · exact Or.inr ((hchar1 x).mpr (Or.inl ⟨h1, hxo⟩))
          · exact Or.inl ⟨by rw [ho1]; omega, by rw [ho1]; omega⟩
        · exact Or.inr ((hchar1 x).mpr (Or.inr hx))

theorem walkF : ∀ (fs : List (String × JTree)) (h : Heap) (A B : Heap)
    (ps : List (String × JSVal)) (seen : List Nat) (fuel : Nat),
    h = A ++ (flatFields fs A.length).1 ++ B →
    ps.map Prod.snd = (flatFields fs A.length).2 →
    sizeF fs < fuel →
    (∀ x, A.length ≤ x → x < A.length + sizeF fs → x ∉ seen) →
    ∃ s2, checkChildren h fuel ps seen = some ([], s2) ∧
      ∀ x, x ∈ s2 ↔ (A.length ≤ x ∧ x < A.length + sizeF fs) ∨ x ∈ seen
  | [], h, A, B, ps, seen, fuel => by
    intro hh hsnd hfuel hdisj
    have hsz : sizeF ([] : List (String × JTree)) = 0 := by rw [sizeF]
    rw [flatFields] at hsnd
    dsimp only at hsnd
    have hps : ps = [] := List.map_eq_nil_iff.mp hsnd
    subst hps
    refine ⟨seen, by rw [checkChildren], ?_⟩
    intro x
    constructor
    · exact fun hx => Or.inr hx
    · rintro (⟨h1, h2⟩ | hx)
      · rw [hsz] at h2; omega
      · exact hx
  | kt :: fs, h, A, B, ps, seen, fuel => by
    intro hh hsnd hfuel hdisj
    rcases hf1 : flat kt.2 A.length with ⟨o1, v1⟩
    have ho1 : o1.length = sizeT kt.2 := by
      have := flat_fst_length kt.2 A.length
      rw [hf1] at this
      exact this
    rcases hf2 : flatFields fs (A.length + o1.length) with ⟨orest, vrest⟩
    have hflcons : flatFields (kt :: fs) A.length = (o1 ++ orest, v1 :: vrest) := by
      rw [flatFields, hf1]
      dsimp only
      rw [hf2]
    have hsz : sizeF (kt :: fs) = sizeT kt.2 + sizeF fs := by rw [sizeF]
    rw [hflcons] at hh hsnd
    dsimp only at hh hsnd
    rw [hsz] at hfuel hdisj ⊢
    cases ps with
    | nil => simp at hsnd
    | cons p1 prest =>
      rw [List.map_cons] at hsnd
      injection hsnd with hp1 hprest
      have hone := walkT kt.2 h A (orest ++ B) p1.1 seen fuel
        (by rw [hh, hf1]; simp [List.append_assoc])
        (by omega)
        (by
          intro x hx1 hx2
          exact hdisj x hx1 (by omega))
      rw [hf1] at hone
      dsimp only at hone
      rcases hone with ⟨s1, heq1, hchar1⟩
      have hrest := walkF fs h (A ++ o1) B prest s1 fuel
        (by
          rw [List.length_append, hf2]
          dsimp only
          rw [hh]
          simp [List.append_assoc])
        (by
          rw [List.length_append, hf2]
          dsimp only
          exact hprest)
        (by omega)
        (by
          intro x hx1 hx2 hmem
          rw [List.length_append] at hx1 hx2
          rcases (hchar1 x).mp hmem with ⟨hr1, hr2⟩ | hxs
          · rw [ho1] at hx1; omega
          · exact hdisj x (by omega) (by rw [ho1] at hx2; omega) hxs)
      rcases hrest with ⟨s2, heq2, hchar2⟩
      have heval : checkChildren h fuel (p1 :: prest) seen = some ([], s2) := by
        rw [checkChildren, hp1, heq1]
        dsimp only
        rw [heq2]
        rfl
      refine ⟨s2, heval, ?_⟩
      intro x
      have hc2 := hchar2 x
      rw [List.length_append] at hc2
      rw [hc2]
      constructor
      · rintro (⟨h1, h2⟩ | hx)
        · rw [ho1] at h1 h2
          exact Or.inl ⟨by omega, by omega⟩
        · rcases (hchar1 x).mp hx with ⟨hr1, hr2⟩ | hxs
          · exact Or.inl ⟨hr1, by omega⟩
          · exact Or.inr hxs
      · rintro (⟨h1, h2⟩ | hx)
        · by_cases hxo : x < A.length + sizeT kt.2
          · exact Or.inr ((hchar1 x).mpr (Or.inl ⟨h1, hxo⟩))
          · exact Or.inl ⟨by rw [ho1]; omega, by rw [ho1]; omega⟩
        · exact Or.inr ((hchar1 x).mpr (Or.inr hx))

end


def heapOfTree (t : JTree) : Heap := (flat t 0).1

def rootOfTree (t : JTree) : JSVal := (flat t 0).2

def isObjTree : JTree → Bool
  | JTree.jarr _ => true
  | JTree.jobj _ => true
  | _ => false

theorem validateStateShape_tree (t : JTree) (hobj : isObjTree t = true)
    (fname : String) :
    validateStateShape (heapOfTree t) (rootOfTree t) fname =
      some { valid := true, error := none } := by
  have hwalk := walkT t (heapOfTree t) [] [] "state" []
    ((heapOfTree t).length + 1)
    (by simp [heapOfTree])
    (by
      have := flat_fst_length t 0
      simp [heapOfTree, this])
    (by intro x _ _ hx; cases hx)
  rcases hwalk with ⟨s2, heq, -⟩
  simp only [List.length_nil] at heq
  rw [show (flat t 0).2 = rootOfTree t from rfl] at heq
  have hroot : ∃ a, rootOfTree t = JSVal.refV a := by
    cases t with
    | jarr ts =>
      refine ⟨0 + (flatList ts 0).1.length, ?_⟩
      rw [rootOfTree, flat]
    | jobj fs =>
      refine ⟨0 + (flatFields fs 0).1.length, ?_⟩
      rw [rootOfTree, flat]
    | jnull => simp [isObjTree] at hobj
    | jbool b => simp [isObjTree] at hobj
    | jnum n => simp [isObjTree] at hobj
    | jstr s => simp [isObjTree] at hobj
  rcases hroot with ⟨a, hra⟩
  rw [hra] at heq
  unfold validateStateShape
  rw [hra]
  rw [if_neg (by simp [typeofStr])]
  rw [heq]
  rfl


/-- C7 counterexample: the claim "validateStateShape flags a violation only
for function-typed values, reference cycles, and live-handle values" fails:
the heap `[{}, {a: o, b: o}]` (the same empty object `o` reachable through
two paths, no cycle, no function, no handle) is flagged as a circular
reference at `state.b`. -/
theorem c7_counterexample :
    hasRefCycle hEx = false ∧
    heapHasFuncVal hEx (JSVal.refV 1) = false ∧
    heapHasHandle hEx = false ∧
    validateStateShape hEx (JSVal.refV 1) "feature" =
      some { valid := false, error := some "Circular reference at state.b" } := by
  refine ⟨by decide, by decide, by decide, ?_⟩
  simp +decide [validateStateShape, checkValue, checkChildren, childEntries,
    hGet, hasIsValidMethod, typeofStr, hEx]

/-- C7 (amended): `validateStateShape` flags a violation only for
function-typed values, *revisited* objects (true reference cycles or
objects reachable through more than one path), and live-handle values: for
every tree-shaped plain data value — an object-rooted value containing no
function, no handle, and in which no object is reachable through two
different paths — validation reports no violations. -/
theorem c7_validateStateShape_clean_on_trees (t : JTree)
    (hobj : isObjTree t = true) (fname : String) :
    validateStateShape (heapOfTree t) (rootOfTree t) fname =
      some { valid := true, error := none } :=
  validateStateShape_tree t hobj fname

/-- Witness for `c7_validateStateShape_clean_on_trees` at the concrete
value `{a: [1, null], b: "x"}`. -/
theorem c7_validateStateShape_clean_on_trees_witness :
    isObjTree (JTree.jobj [("a", JTree.jarr [JTree.jnum 1, JTree.jnull]),
      ("b", JTree.jstr "x")]) = true ∧
    validateStateShape
      (heapOfTree (JTree.jobj [("a", JTree.jarr [JTree.jnum 1, JTree.jnull]),
        ("b", JTree.jstr "x")]))
      (rootOfTree (JTree.jobj [("a", JTree.jarr [JTree.jnum 1, JTree.jnull]),
        ("b", JTree.jstr "x")]))
      "feature" = some { valid := true, error := none } :=
  ⟨rfl, c7_validateStateShape_clean_on_trees
    (JTree.jobj [("a", JTree.jarr [JTree.jnum 1, JTree.jnull]),
      ("b", JTree.jstr "x")]) rfl "feature"⟩


/-! ## Checkpoint manager: `safeGetState`, the save pass, `safeRestoreState`

A plugin instance is modelled by the observable behaviour of its lifecycle
methods (`Feature`).  `safeGetState` mirrors `state-utils.ts` lines 41-90;
`collectStates` mirrors the aggregation loop of the orchestrator's hot
reload `before` handler (`gamemode-orchestrator.ts` lines 420-433), which
stores a plugin's state only when `result.success` holds.  `safeRestoreState`
mirrors `state-utils.ts` lines 104-137.  Fresh `{}` objects are allocated
on the heap by `allocEmpty`.
-/

inductive Decision where
  | modifyDamage (damage : Int) : Decision
  | abortDamage : Decision
deriving DecidableEq, Repr

inductive GetStateBehavior where
  | missing : GetStateBehavior
  | throws (msg : String) : GetStateBehavior
  | returns (v : JSVal) : GetStateBehavior
deriving DecidableEq, Repr

structure Feature where
  getStateB : GetStateBehavior
  hasRestoreState : Bool
  restoreThrows : Bool
  hasHotReloadComplete : Bool
  hotReloadThrows : Bool
  damageHook : Option (Int → Option Decision)

structure SafeStateResult where
  success : Bool
  data : JSVal
  error : Option String

def allocEmpty (h : Heap) : Heap × JSVal :=
  (h ++ [HObj.recO []], JSVal.refV h.length)

def safeGetState (h : Heap) (f : Feature) (featureName : String) :
    Heap × SafeStateResult :=
  match f.getStateB with
  | GetStateBehavior.missing =>
    let p := allocEmpty h
    (p.1, { success := false, data := p.2,
            error := some ("Feature '" ++ featureName ++ "' has no getState method") })
  | GetStateBehavior.throws msg =>
    let p := allocEmpty h
    (p.1, { success := false, data := p.2, error := some msg })
  | GetStateBehavior.returns v =>
    match v with
    | JSVal.nullV =>
      let p := allocEmpty h
      (p.1, { success := true, data := p.2, error := none })
    | JSVal.undef =>
      let p := allocEmpty h
      (p.1, { success := true, data := p.2, error := none })
    | JSVal.refV a => (h, { success := true, data := JSVal.refV a, error := none })
    | w =>
      let p := allocEmpty h
      (p.1, { success := false, data := p.2,
              error := some ("State must be an object, got " ++ typeofStr w) })

def collectStates (h : Heap) : List (String × Feature) → Heap × List (String × JSVal)
  | [] => (h, [])
  | (n, f) :: rest =>
    match safeGetState h f n with
    | (h1, r) =>
      match collectStates h1 rest with
      | (h2, m) => if r.success then (h2, (n, r.data) :: m) else (h2, m)

structure RestoreResult where
  success : Bool
  restoreCalledWith : Option JSVal
deriving DecidableEq, Repr

def safeRestoreState (h : Heap) (f : Feature) (state : JSVal)
    (featureName : String) : RestoreResult :=
  if f.hasRestoreState = false then
    { success := false, restoreCalledWith := none }
  else if state = JSVal.undef ∨ state = JSVal.nullV then
    { success := false, restoreCalledWith := none }
  else
    let _validation := validateStateShape h state featureName
    { success := !f.restoreThrows, restoreCalledWith := some state }

def fThrow : Feature :=
  { getStateB := GetStateBehavior.throws "boom", hasRestoreState := true,
    restoreThrows := false, hasHotReloadComplete := false,
    hotReloadThrows := false, damageHook := none }

def fGood : Feature :=
  { getStateB := GetStateBehavior.returns (JSVal.refV 0), hasRestoreState := true,
    restoreThrows := false, hasHotReloadComplete := false,
    hotReloadThrows := false, damageHook := none }

def h0 : Heap := [HObj.recO [("x", JSVal.numV 1)]]

theorem collect_name_mem (h : Heap) :
    ∀ (ps : List (String × Feature)) (p : String × JSVal),
    p ∈ (collectStates h ps).2 → p.1 ∈ ps.map Prod.fst := by
  intro ps
  induction ps generalizing h with
  | nil => intro p hp; simp [collectStates] at hp
  | cons nf rest ih =>
    intro p hp
    rcases nf with ⟨n, f⟩
    rw [collectStates] at hp
    rcases hsg : safeGetState h f n with ⟨h1, r⟩
    rw [hsg] at hp
    dsimp only at hp
    rcases hcol : collectStates h1 rest with ⟨h2, m⟩
    rw [hcol] at hp
    dsimp only at hp
    have hm : ∀ q ∈ m, (q : String × JSVal).1 ∈ rest.map Prod.fst := by
      intro q hq
      apply ih h1
      rw [hcol]
      exact hq
    by_cases hs : r.success = true
    · rw [if_pos hs] at hp
      rcases List.mem_cons.mp hp with h1e | h2e
      · rw [h1e]; simp
      · simp [hm p h2e]
    · rw [if_neg hs] at hp
      simp [hm p hp]

theorem lookup_eq_none_of_not_mem {k : String} :
    ∀ {l : List (String × JSVal)}, (∀ p ∈ l, p.1 ≠ k) → List.lookup k l = none := by
  intro l
  induction l with
  | nil => intro; rfl
  | cons p rest ih =>
    intro hall
    rw [List.lookup]
    have hne : p.1 ≠ k := hall p (List.mem_cons_self _ _)
    rw [show (k == p.1) = false by simpa using fun he => hne he.symm]
    exact ih (fun q hq => hall q (List.mem_cons_of_mem _ hq))

theorem c1_amended_general :
    ∀ (ps : List (String × Feature)) (h : Heap) (n : String) (f : Feature),
    (n, f) ∈ ps → (ps.map Prod.fst).Nodup →
    ((∀ msg, f.getStateB = GetStateBehavior.throws msg →
        List.lookup n (collectStates h ps).2 = none) ∧
     (∀ a, f.getStateB = GetStateBehavior.returns (JSVal.refV a) →
        List.lookup n (collectStates h ps).2 = some (JSVal.refV a))) := by
  intro ps
  induction ps with
  | nil => intro h n f hm; cases hm
  | cons nf rest ih =>
    intro h n f hm hnd
    rcases nf with ⟨n1, f1⟩
    rw [List.map_cons] at hnd
    have hnd1 : n1 ∉ rest.map Prod.fst := (List.nodup_cons.mp hnd).1
    have hnd2 : (rest.map Prod.fst).Nodup := (List.nodup_cons.mp hnd).2
    rcases List.mem_cons.mp hm with hhead | htail
    · have hn : n1 = n := by
        have := congrArg Prod.fst hhead.symm
        simpa using this
      have hf : f1 = f := by
        have := congrArg Prod.snd hhead.symm
        simpa using this
      subst hn
      subst hf
      constructor
      · intro msg hth
        rw [collectStates]
        have hsg : safeGetState h f1 n1 =
            ((allocEmpty h).1,
             { success := false, data := (allocEmpty h).2, error := some msg }) := by
          rw [safeGetState, hth]
        rw [hsg]
        dsimp only
        rcases hcol : collectStates (allocEmpty h).1 rest with ⟨h2, m⟩
        dsimp only
        rw [if_neg (by simp)]
        apply lookup_eq_none_of_not_mem
        intro p hp hpn
        apply hnd1
        rw [← hpn]
        apply collect_name_mem (allocEmpty h).1 rest p
        rw [hcol]
        exact hp
      · intro a hret
        rw [collectStates]
        have hsg : safeGetState h f1 n1 =
            (h, { success := true, data := JSVal.refV a, error := none }) := by
          rw [safeGetState, hret]
        rw [hsg]
        dsimp only
        rcases hcol : collectStates h rest with ⟨h2, m⟩
        dsimp only
        rw [if_pos (by simp)]
        rw [List.lookup]
        simp
    · have hn1 : n1 ≠ n := by
        intro he
        apply hnd1
        rw [he]
        exact List.mem_map_of_mem Prod.fst htail
      rw [collectStates]
      rcases hsg : safeGetState h f1 n1 with ⟨h1, r⟩
      dsimp only
      have hih := ih h1 n f htail hnd2
      rcases hcol : collectStates h1 rest with ⟨h2, m⟩
      rw [hcol] at hih
      dsimp only at hih
      dsimp only
      constructor
      · intro msg hth
        by_cases hs : r.success = true
        · rw [if_pos hs]
          rw [List.lookup]
          rw [show (n == n1) = false by simpa using fun he => hn1 he.symm]
          exact hih.1 msg hth
        · rw [if_neg hs]
          exact hih.1 msg hth
      · intro a hret
        by_cases hs : r.success = true
        · rw [if_pos hs]
          rw [List.lookup]
          rw [show (n == n1) = false by simpa using fun he => hn1 he.symm]
          exact hih.2 a hret
        · rw [if_neg hs]
          exact hih.2 a hret

theorem c9_general (h : Heap) (f : Feature) (a : Nat) (fname : String)
    (hrs : f.hasRestoreState = true) :
    (safeRestoreState h f (JSVal.refV a) fname).restoreCalledWith =
      some (JSVal.refV a) := by
  rw [safeRestoreState]
  rw [if_neg (by simp [hrs])]
  rw [if_neg (by simp)]

/-- C1 counterexample: with plugins `a` (whose `getState` throws) and `b`
(whose `getState` returns an object), the aggregated checkpoint map has
*no* entry for `a` at all — not an empty-object entry — while `b` is
captured. -/
theorem c1_counterexample :
    List.lookup "a" (collectStates h0 [("a", fThrow), ("b", fGood)]).2 = none ∧
    List.lookup "b" (collectStates h0 [("a", fThrow), ("b", fGood)]).2 =
      some (JSVal.refV 0) := ⟨rfl, rfl⟩

/-- C1 (amended): if one plugin's `getState` throws during the checkpoint
save pass, that plugin has *no entry* in the aggregated checkpoint map
(`safeGetState` substitutes an empty object in its failure result, but the
save pass records only successful results), and every other plugin whose
`getState` returns an object still has its state captured into the map
unchanged. -/
theorem c1_throwing_getState_checkpoint
    (ps : List (String × Feature)) (h : Heap) (n : String) (f : Feature)
    (hm : (n, f) ∈ ps) (hnd : (ps.map Prod.fst).Nodup) :
    (∀ msg, f.getStateB = GetStateBehavior.throws msg →
       List.lookup n (collectStates h ps).2 = none) ∧
    (∀ a, f.getStateB = GetStateBehavior.returns (JSVal.refV a) →
       List.lookup n (collectStates h ps).2 = some (JSVal.refV a)) :=
  c1_amended_general ps h n f hm hnd

/-- Witness for `c1_throwing_getState_checkpoint` on the two-plugin list of
`c1_counterexample`. -/
theorem c1_throwing_getState_checkpoint_witness :
    (("b", fGood) ∈ [("a", fThrow), ("b", fGood)] ∧
     (([("a", fThrow), ("b", fGood)].map Prod.fst).Nodup)) ∧
    (List.lookup "a" (collectStates h0 [("a", fThrow), ("b", fGood)]).2 = none ∧
     List.lookup "b" (collectStates h0 [("a", fThrow), ("b", fGood)]).2 =
       some (JSVal.refV 0)) := by
  have hmemb : ("b", fGood) ∈ [("a", fThrow), ("b", fGood)] :=
    List.mem_cons_of_mem _ (List.mem_cons_self _ _)
  have hmema : ("a", fThrow) ∈ [("a", fThrow), ("b", fGood)] :=
    List.mem_cons_self _ _
  have hnd : (([("a", fThrow), ("b", fGood)]).map Prod.fst).Nodup := by
    simp
  refine ⟨⟨hmemb, hnd⟩, ?_, ?_⟩
  · exact (c1_throwing_getState_checkpoint _ h0 "a" fThrow hmema hnd).1 "boom" rfl
  · exact (c1_throwing_getState_checkpoint _ h0 "b" fGood hmemb hnd).2 0 rfl

/-- A heap whose root object holds a function — it fails
`validateStateShape`. -/
def hFunc : Heap := [HObj.recO [("f", JSVal.funcV)]]

/-- C9: for every plugin that has a `restoreState` method and every actual
`PluginState` value (an object), `safeRestoreState` passes the state to
`restoreState` on *every* heap — in particular also when the state fails
`validateStateShape`; the validation result affects only logging. -/
theorem c9_safeRestoreState_calls_restore
    (h : Heap) (f : Feature) (a : Nat) (fname : String)
    (hrs : f.hasRestoreState = true) :
    (safeRestoreState h f (JSVal.refV a) fname).restoreCalledWith =
      some (JSVal.refV a) :=
  c9_general h f a fname hrs

/-- Witness for `c9_safeRestoreState_calls_restore` on a state that *fails*
validation (it contains a function): `restoreState` is still called with
it. -/
theorem c9_safeRestoreState_calls_restore_witness :
    fGood.hasRestoreState = true ∧
    validateStateShape hFunc (JSVal.refV 0) "p" =
      some { valid := false,
             error := some "Function at state.f - functions cannot be serialized" } ∧
    (safeRestoreState hFunc fGood (JSVal.refV 0) "p").restoreCalledWith =
      some (JSVal.refV 0) := by
  refine ⟨rfl, ?_, c9_safeRestoreState_calls_restore hFunc fGood 0 "p" rfl⟩
  simp +decide [validateStateShape, checkValue, checkChildren, childEntries,
    hGet, hasIsValidMethod, typeofStr, hFunc]


/-! ## Plugin registry and ordering (`gamemode-orchestrator.ts` lines 303-315)

`getOrderedPlugins` filters by the `enabledPlugins` allow-list (only when it
is present and non-empty) and sorts ascending by priority with the default
`100` for a missing priority.  JavaScript `Array.prototype.sort` is
guaranteed stable (ES2019), which `List.mergeSort` models. -/

def DEFAULT_PRIORITY : Int := 100

structure Descriptor where
  name : String
  priority : Option Int
  create : Feature

def prio (d : Descriptor) : Int := d.priority.getD DEFAULT_PRIORITY

def hasEnabledList (enabledPlugins : Option (List String)) : Bool :=
  match enabledPlugins with
  | some l => decide (0 < l.length)
  | none => false

def pluginsToLoad (plugins : List Descriptor)
    (enabledPlugins : Option (List String)) : List Descriptor :=
  if hasEnabledList enabledPlugins then
    plugins.filter (fun d => (enabledPlugins.getD []).contains d.name)
  else plugins

def getOrderedPlugins (plugins : List Descriptor)
    (enabledPlugins : Option (List String)) : List Descriptor :=
  (pluginsToLoad plugins enabledPlugins).mergeSort
    (fun a b => decide (prio a ≤ prio b))

theorem prioLe_trans : ∀ (a b c : Descriptor),
    decide (prio a ≤ prio b) → decide (prio b ≤ prio c) →
    decide (prio a ≤ prio c) := by
  intro a b c h1 h2
  simp at h1 h2 ⊢
  omega

theorem prioLe_total : ∀ (a b : Descriptor),
    decide (prio a ≤ prio b) || decide (prio b ≤ prio a) := by
  intro a b
  by_cases hab : prio a ≤ prio b
  · simp [hab]
  · simp [hab]; omega

theorem c3_parts (plugins : List Descriptor) (enabledPlugins : Option (List String)) :
    (getOrderedPlugins plugins enabledPlugins).Perm
        (pluginsToLoad plugins enabledPlugins) ∧
    (getOrderedPlugins plugins enabledPlugins).Pairwise
        (fun a b => decide (prio a ≤ prio b)) ∧
    (∀ p : Int, (getOrderedPlugins plugins enabledPlugins).filter
        (fun d => prio d == p) =
      (pluginsToLoad plugins enabledPlugins).filter (fun d => prio d == p)) := by
  refine ⟨List.mergeSort_perm _ _, List.sorted_mergeSort prioLe_trans prioLe_total _, ?_⟩
  intro p
  set L := pluginsToLoad plugins enabledPlugins with hL
  set c := L.filter (fun d => prio d == p) with hc
  have hmemc : ∀ d ∈ c, prio d = p := by
    intro d hd
    have := List.of_mem_filter hd
    simpa using this
  have hcpair : c.Pairwise (fun a b => decide (prio a ≤ prio b)) := by
    apply List.pairwise_of_forall_mem_list
    intro a ha b hb
    simp [hmemc a ha, hmemc b hb]
  have hsub : List.Sublist c L := List.filter_sublist L
  have hsorted : List.Sublist c (getOrderedPlugins plugins enabledPlugins) :=
    List.sublist_mergeSort prioLe_trans prioLe_total hcpair hsub
  have hcf : c.filter (fun d => prio d == p) = c := by
    apply List.filter_eq_self.mpr
    intro d hd
    simp [hmemc d hd]
  have hsubf : List.Sublist c ((getOrderedPlugins plugins enabledPlugins).filter
      (fun d => prio d == p)) := by
    have := hsorted.filter (fun d => prio d == p)
    rwa [hcf] at this
  have hperm : List.Perm ((getOrderedPlugins plugins enabledPlugins).filter
      (fun d => prio d == p)) c :=
    (List.mergeSort_perm L _).filter _
  exact (List.Sublist.eq_of_length hsubf hperm.length_eq.symm).symm

/-- C3: the ordered plugin list contains exactly the descriptors that pass
the enabled filter (all of them when the list is absent or empty — that is
what `pluginsToLoad` computes), is sorted ascending by priority with 100
substituted for a missing priority, and equal-priority descriptors keep
their original registration order (the filter at each priority is
unchanged).  Determinism is definitional: `getOrderedPlugins` is a pure
function of its two arguments. -/
theorem c3_getOrderedPlugins_ordering (plugins : List Descriptor)
    (enabledPlugins : Option (List String)) :
    (getOrderedPlugins plugins enabledPlugins).Perm
        (pluginsToLoad plugins enabledPlugins) ∧
    (getOrderedPlugins plugins enabledPlugins).Pairwise
        (fun a b => decide (prio a ≤ prio b)) ∧
    (∀ p : Int, (getOrderedPlugins plugins enabledPlugins).filter
        (fun d => prio d == p) =
      (pluginsToLoad plugins enabledPlugins).filter (fun d => prio d == p)) :=
  c3_parts plugins enabledPlugins

/-! ## First-responder-wins damage dispatch
(`gamemode-orchestrator.ts` lines 687-700)

The damage-override event payload is opaque to the dispatch logic and is
modelled as an `Int`; the "no opinion" sentinel `undefined` is `none`.
The dispatch also returns the names of the plugins whose
`onBeforePlayerDamage` hook was actually invoked, in order. -/

def hookRes (active : String → Option Feature) (d : Descriptor) (ev : Int) :
    Option Decision :=
  match active d.name with
  | none => none
  | some p =>
    match p.damageHook with
    | none => none
    | some hk => hk ev

def onBeforePlayerDamageDispatch (active : String → Option Feature) (ev : Int) :
    List Descriptor → Option Decision × List String
  | [] => (none, [])
  | d :: rest =>
    match active d.name with
    | none => onBeforePlayerDamageDispatch active ev rest
    | some p =>
      match p.damageHook with
      | none => onBeforePlayerDamageDispatch active ev rest
      | some hk =>
        match hk ev with
        | some r => (some r, [d.name])
        | none =>
          match onBeforePlayerDamageDispatch active ev rest with
          | (res, inv) => (res, d.name :: inv)

def invokedHooks (active : String → Option Feature) (l : List Descriptor) :
    List String :=
  l.filterMap (fun d =>
    match active d.name with
    | some p => if p.damageHook.isSome then some d.name else none
    | none => none)

theorem invokedHooks_cons_none (active : String → Option Feature)
    (d : Descriptor) (l : List Descriptor) (ha : active d.name = none) :
    invokedHooks active (d :: l) = invokedHooks active l := by
  simp only [invokedHooks, List.filterMap_cons, ha]

theorem invokedHooks_cons_nohook (active : String → Option Feature)
    (d : Descriptor) (l : List Descriptor) (p : Feature)
    (ha : active d.name = some p) (hh : p.damageHook = none) :
    invokedHooks active (d :: l) = invokedHooks active l := by
  simp only [invokedHooks, List.filterMap_cons, ha, hh]
  rfl

theorem invokedHooks_cons_hook (active : String → Option Feature)
    (d : Descriptor) (l : List Descriptor) (p : Feature)
    (hk : Int → Option Decision)
    (ha : active d.name = some p) (hh : p.damageHook = some hk) :
    invokedHooks active (d :: l) = d.name :: invokedHooks active l := by
  simp only [invokedHooks, List.filterMap_cons, ha, hh]
  rfl

theorem dispatch_all_none (active : String → Option Feature) (ev : Int) :
    ∀ (l : List Descriptor), (∀ d2 ∈ l, hookRes active d2 ev = none) →
    onBeforePlayerDamageDispatch active ev l = (none, invokedHooks active l) := by
  intro l
  induction l with
  | nil => intro; rfl
  | cons d rest ih =>
    intro hall
    have hd := hall d (List.mem_cons_self _ _)
    have hrest := ih (fun d2 hd2 => hall d2 (List.mem_cons_of_mem _ hd2))
    rw [hookRes] at hd
    rcases ha : active d.name with _ | p
    · rw [invokedHooks_cons_none active d rest ha]
      simp only [onBeforePlayerDamageDispatch, ha]
      exact hrest
    · rw [ha] at hd
      dsimp only at hd
      rcases hh : p.damageHook with _ | hk
      · rw [invokedHooks_cons_nohook active d rest p ha hh]
        simp only [onBeforePlayerDamageDispatch, ha, hh]
        exact hrest
      · rw [hh] at hd
        dsimp only at hd
        rw [invokedHooks_cons_hook active d rest p hk ha hh]
        simp only [onBeforePlayerDamageDispatch, ha, hh, hd, hrest]

theorem dispatch_first_responder (active : String → Option Feature) (ev : Int) :
    ∀ (pre : List Descriptor) (d : Descriptor) (post : List Descriptor)
      (v : Decision),
    (∀ d2 ∈ pre, hookRes active d2 ev = none) →
    hookRes active d ev = some v →
    onBeforePlayerDamageDispatch active ev (pre ++ d :: post) =
      (some v, invokedHooks active pre ++ [d.name]) := by
  intro pre
  induction pre with
  | nil =>
    intro d post v hpre hd
    rw [hookRes] at hd
    rw [List.nil_append]
    rcases ha : active d.name with _ | p
    · rw [ha] at hd; cases hd
    · rw [ha] at hd
      dsimp only at hd
      rcases hh : p.damageHook with _ | hk
      · rw [hh] at hd; cases hd
      · rw [hh] at hd
        dsimp only at hd
        simp only [onBeforePlayerDamageDispatch, ha, hh, hd]
        rfl
  | cons d1 rest ih =>
    intro d post v hpre hd
    have hd1 := hpre d1 (List.mem_cons_self _ _)
    have hih := ih d post v (fun d2 hd2 => hpre d2 (List.mem_cons_of_mem _ hd2)) hd
    rw [List.cons_append]
    rw [hookRes] at hd1
    rcases ha : active d1.name with _ | p
    · rw [invokedHooks_cons_none active d1 rest ha]
      simp only [onBeforePlayerDamageDispatch, ha]
      exact hih
    · rw [ha] at hd1
      dsimp only at hd1
      rcases hh : p.damageHook with _ | hk
      · rw [invokedHooks_cons_nohook active d1 rest p ha hh]
        simp only [onBeforePlayerDamageDispatch, ha, hh]
        exact hih
      · rw [hh] at hd1
        dsimp only at hd1
        rw [invokedHooks_cons_hook active d1 rest p hk ha hh]
        simp only [onBeforePlayerDamageDispatch, ha, hh, hd1, hih]
        rw [List.cons_append]

/-- C4: plugins are visited in ordered-list order; the first plugin whose
`onBeforePlayerDamage` hook returns a value other than the no-opinion
sentinel (`undefined`/`none`) ends the iteration and its value is the final
decision — the invoked-hook list is exactly the no-opinion prefix plus that
plugin, so no later plugin's hook runs — and if every visited hook returns
the sentinel the dispatch result is the sentinel. -/
theorem c4_damage_first_responder_wins :
    (∀ (active : String → Option Feature) (ev : Int) (pre : List Descriptor)
       (d : Descriptor) (post : List Descriptor) (v : Decision),
      (∀ d2 ∈ pre, hookRes active d2 ev = none) →
      hookRes active d ev = some v →
      onBeforePlayerDamageDispatch active ev (pre ++ d :: post) =
        (some v, invokedHooks active pre ++ [d.name])) ∧
    (∀ (active : String → Option Feature) (ev : Int) (l : List Descriptor),
      (∀ d2 ∈ l, hookRes active d2 ev = none) →
      onBeforePlayerDamageDispatch active ev l = (none, invokedHooks active l)) :=
  ⟨fun active ev pre d post v h1 h2 =>
      dispatch_first_responder active ev pre d post v h1 h2,
   fun active ev l h => dispatch_all_none active ev l h⟩

/-- The spec's own damage-override example: P1 (priority 10) aborts, P2
(priority 20) would double damage. -/
def featP1 : Feature :=
  { getStateB := GetStateBehavior.returns (JSVal.refV 0), hasRestoreState := true,
    restoreThrows := false, hasHotReloadComplete := false,
    hotReloadThrows := false,
    damageHook := some (fun _ => some Decision.abortDamage) }

def featP2 : Feature :=
  { getStateB := GetStateBehavior.returns (JSVal.refV 0), hasRestoreState := true,
    restoreThrows := false, hasHotReloadComplete := false,
    hotReloadThrows := false,
    damageHook := some (fun _ => some (Decision.modifyDamage 2)) }

def featNoOpinion : Feature :=
  { getStateB := GetStateBehavior.returns (JSVal.refV 0), hasRestoreState := true,
    restoreThrows := false, hasHotReloadComplete := false,
    hotReloadThrows := false, damageHook := some (fun _ => none) }

def dP1 : Descriptor := { name := "P1", priority := some 10, create := featP1 }

def dP2 : Descriptor := { name := "P2", priority := some 20, create := featP2 }

def dP3 : Descriptor := { name := "P3", priority := none, create := featNoOpinion }

def activeEx : String → Option Feature := fun n =>
  if n = "P1" then some featP1
  else if n = "P2" then some featP2
  else if n = "P3" then some featNoOpinion
  else none

/-- Witness for `c4_damage_first_responder_wins`: dispatching with P1 and
P2 enabled returns `abort` and invokes only P1's hook; with just P3 (which
returns the sentinel) the result is the sentinel. -/
theorem c4_damage_first_responder_wins_witness :
    hookRes activeEx dP1 0 = some Decision.abortDamage ∧
    onBeforePlayerDamageDispatch activeEx 0 [dP1, dP2] =
      (some Decision.abortDamage, ["P1"]) ∧
    onBeforePlayerDamageDispatch activeEx 0 [dP3] = (none, ["P3"]) := by
  refine ⟨rfl, ?_, ?_⟩
  · have := c4_damage_first_responder_wins.1 activeEx 0 [] dP1 [dP2]
      Decision.abortDamage (by intro d2 hd2; cases hd2) rfl
    simpa using this
  · have := c4_damage_first_responder_wins.2 activeEx 0 [dP3]
      (by
        intro d2 hd2
        rcases List.mem_singleton.mp hd2 with rfl
        rfl)
    simpa using this


/-! ## Lifecycle manager: boot paths and the checkpoint-rebuild trace

`gamemode-orchestrator.ts`: fresh boot is `initializePlugins` (lines
329-348, create + `init()` per descriptor, never `restoreState`); rebuild
is the hot-reload `after` handler (lines 446-498): recreate instances, then
the restore pass (`if (state[name]) safeRestoreState(...)`), then `init()`
on every plugin, then restart the think loop, then — only when at least one
connected player exists — `onHotReloadComplete` on every plugin that
implements it.  Traces record the observable calls in order. -/

inductive Ev where
  | cleanupE (n : String) : Ev
  | getStateE (n : String) : Ev
  | restoreE (n : String) : Ev
  | initE (n : String) : Ev
  | hotReloadE (n : String) : Ev
  | thinkStartE : Ev
deriving DecidableEq, Repr

def jsTruthy : JSVal → Bool
  | JSVal.undef => false
  | JSVal.nullV => false
  | JSVal.boolV b => b
  | JSVal.numV n => decide (n ≠ 0)
  | JSVal.strV s => decide (s ≠ "")
  | JSVal.funcV => true
  | JSVal.refV _ => true

def mapSet (m : List (String × Feature)) (k : String) (v : Feature) :
    List (String × Feature) :=
  match m with
  | [] => [(k, v)]
  | p :: rest => if p.1 = k then (k, v) :: rest else p :: mapSet rest k v

def createPluginInstances (ordered : List Descriptor) : List (String × Feature) :=
  ordered.foldl (fun m d => mapSet m d.name d.create) []

theorem lookup_mapSet_self (k : String) (v : Feature) :
    ∀ (m : List (String × Feature)), List.lookup k (mapSet m k v) = some v := by
  intro m
  induction m with
  | nil => simp [mapSet, List.lookup]
  | cons p rest ih =>
    rw [mapSet]
    by_cases hp : p.1 = k
    · rw [if_pos hp, List.lookup]
      simp
    · rw [if_neg hp, List.lookup]
      rw [show (k == p.1) = false by simpa using fun he => hp he.symm]
      exact ih

theorem lookup_mapSet_other (k k2 : String) (v : Feature) (hne : k2 ≠ k) :
    ∀ (m : List (String × Feature)),
    List.lookup k2 (mapSet m k v) = List.lookup k2 m := by
  intro m
  induction m with
  | nil =>
    simp [mapSet, List.lookup, show (k2 == k) = false by simpa using hne]
  | cons p rest ih =>
    rw [mapSet]
    by_cases hp : p.1 = k
    · rw [if_pos hp, List.lookup, List.lookup]
      rw [show (k2 == k) = false by simpa using hne]
      rw [show (k2 == p.1) = false by simpa using (hp ▸ hne : k2 ≠ p.1)]
    · rw [if_neg hp, List.lookup, List.lookup]
      by_cases hq : k2 = p.1
      · rw [show (k2 == p.1) = true by simpa using hq]
      · rw [show (k2 == p.1) = false by simpa using hq]
        exact ih

theorem lookup_foldl_not_mem (acc : List (String × Feature)) (n : String) :
    ∀ (l : List Descriptor), n ∉ l.map Descriptor.name →
    List.lookup n (l.foldl (fun m d => mapSet m d.name d.create) acc) =
      List.lookup n acc := by
  intro l
  induction l generalizing acc with
  | nil => intro; rfl
  | cons d rest ih =>
    intro hn
    rw [List.map_cons] at hn
    rw [List.foldl_cons]
    rw [ih (mapSet acc d.name d.create) (fun hm => hn (List.mem_cons_of_mem _ hm))]
    exact lookup_mapSet_other d.name n d.create
      (fun he => hn (he ▸ List.mem_cons_self _ _)) acc

theorem lookup_createPluginInstances :
    ∀ (l : List Descriptor) (acc : List (String × Feature)) (d : Descriptor),
    d ∈ l → (l.map Descriptor.name).Nodup →
    List.lookup d.name (l.foldl (fun m d2 => mapSet m d2.name d2.create) acc) =
      some d.create := by
  intro l
  induction l with
  | nil => intro acc d hm; cases hm
  | cons d1 rest ih =>
    intro acc d hm hnd
    rw [List.map_cons, List.nodup_cons] at hnd
    rw [List.foldl_cons]
    rcases List.mem_cons.mp hm with he | ht
    · subst he
      rw [lookup_foldl_not_mem _ _ rest hnd.1]
      exact lookup_mapSet_self d.name d.create acc
    · exact ih (mapSet acc d1.name d1.create) d ht hnd.2

def restorePhase (active : List (String × Feature))
    (ckpt : List (String × JSVal)) (ordered : List Descriptor) : List Ev :=
  ordered.filterMap (fun d =>
    match List.lookup d.name active with
    | none => none
    | some p =>
      match List.lookup d.name ckpt with
      | none => none
      | some v =>
        if jsTruthy v then
          (if p.hasRestoreState then some (Ev.restoreE d.name) else none)
        else none)

def initPhase (active : List (String × Feature)) (ordered : List Descriptor) :
    List Ev :=
  ordered.filterMap (fun d =>
    match List.lookup d.name active with
    | some _ => some (Ev.initE d.name)
    | none => none)

def hotReloadPhase (active : List (String × Feature)) (ordered : List Descriptor) :
    List Ev :=
  ordered.filterMap (fun d =>
    match List.lookup d.name active with
    | some p => if p.hasHotReloadComplete then some (Ev.hotReloadE d.name) else none
    | none => none)

def rebuildTrace (descs : List Descriptor) (enabled : Option (List String))
    (ckpt : List (String × JSVal)) (connectedPlayers : Nat) : List Ev :=
  restorePhase (createPluginInstances (getOrderedPlugins descs enabled)) ckpt
      (getOrderedPlugins descs enabled) ++
    initPhase (createPluginInstances (getOrderedPlugins descs enabled))
      (getOrderedPlugins descs enabled) ++
    [Ev.thinkStartE] ++
    (if 0 < connectedPlayers then
      hotReloadPhase (createPluginInstances (getOrderedPlugins descs enabled))
        (getOrderedPlugins descs enabled)
     else [])

def freshBootTrace (descs : List Descriptor) (enabled : Option (List String)) :
    List Ev :=
  (getOrderedPlugins descs enabled).map (fun d => Ev.initE d.name)

theorem before_of_append {α : Type} (L1 L2 : List α) (P Q : α → Prop)
    (h1 : ∀ e ∈ L2, ¬P e) (h2 : ∀ e ∈ L1, ¬Q e) :
    ∀ (i j : Nat) (e1 e2 : α), (L1 ++ L2)[i]? = some e1 →
    (L1 ++ L2)[j]? = some e2 → P e1 → Q e2 → i < j := by
  intro i j e1 e2 hgi hgj hP hQ
  rcases List.getElem?_eq_some_iff.mp hgi with ⟨hi, hei⟩
  rcases List.getElem?_eq_some_iff.mp hgj with ⟨hj, hej⟩
  by_cases hiL : i < L1.length
  · by_cases hjL : j < L1.length
    · exfalso
      apply h2 e2 _ hQ
      rw [← hej, List.getElem_append_left hjL]
      exact List.getElem_mem _
    · omega
  · exfalso
    apply h1 e1 _ hP
    rw [← hei, List.getElem_append_right (Nat.le_of_not_lt hiL)]
    exact List.getElem_mem _

theorem restorePhase_shape (active : List (String × Feature))
    (ckpt : List (String × JSVal)) (ordered : List Descriptor) :
    ∀ e ∈ restorePhase active ckpt ordered, ∃ n, e = Ev.restoreE n := by
  intro e he
  rcases List.mem_filterMap.mp he with ⟨d, -, hfd⟩
  rcases h1 : List.lookup d.name active with _ | p <;> rw [h1] at hfd
  · cases hfd
  · dsimp only at hfd
    rcases h2 : List.lookup d.name ckpt with _ | v <;> rw [h2] at hfd
    · cases hfd
    · dsimp only at hfd
      by_cases h3 : jsTruthy v = true
      · rw [if_pos h3] at hfd
        by_cases h4 : p.hasRestoreState = true
        · rw [if_pos h4] at hfd
          exact ⟨d.name, (Option.some.inj hfd).symm⟩
        · rw [if_neg h4] at hfd; cases hfd
      · rw [if_neg h3] at hfd; cases hfd

theorem initPhase_shape (active : List (String × Feature))
    (ordered : List Descriptor) :
    ∀ e ∈ initPhase active ordered, ∃ n, e = Ev.initE n := by
  intro e he
  rcases List.mem_filterMap.mp he with ⟨d, -, hfd⟩
  rcases h1 : List.lookup d.name active with _ | p <;> rw [h1] at hfd
  · cases hfd
  · exact ⟨d.name, (Option.some.inj hfd).symm⟩

theorem hotReloadPhase_shape (active : List (String × Feature))
    (ordered : List Descriptor) :
    ∀ e ∈ hotReloadPhase active ordered,
      ∃ d, d ∈ ordered ∧ e = Ev.hotReloadE d.name := by
  intro e he
  rcases List.mem_filterMap.mp he with ⟨d, hd, hfd⟩
  rcases h1 : List.lookup d.name active with _ | p <;> rw [h1] at hfd
  · cases hfd
  · dsimp only at hfd
    by_cases h2 : p.hasHotReloadComplete = true
    · rw [if_pos h2] at hfd
      exact ⟨d, hd, (Option.some.inj hfd).symm⟩
    · rw [if_neg h2] at hfd; cases hfd

theorem before_of_eq_append {α : Type} (L L1 L2 : List α) (P Q : α → Prop)
    (hL : L = L1 ++ L2)
    (h1 : ∀ e ∈ L2, ¬P e) (h2 : ∀ e ∈ L1, ¬Q e) :
    ∀ (i j : Nat) (e1 e2 : α), L[i]? = some e1 → L[j]? = some e2 →
    P e1 → Q e2 → i < j := by
  subst hL
  exact before_of_append L1 L2 P Q h1 h2

theorem nodup_ordered (descs : List Descriptor) (en : Option (List String))
    (hnd : (descs.map Descriptor.name).Nodup) :
    ((getOrderedPlugins descs en).map Descriptor.name).Nodup := by
  have hperm : List.Perm (getOrderedPlugins descs en) (pluginsToLoad descs en) :=
    List.mergeSort_perm _ _
  have h2 : ((pluginsToLoad descs en).map Descriptor.name).Nodup := by
    rw [pluginsToLoad]
    by_cases hbl : hasEnabledList en = true
    · rw [if_pos hbl]
      exact List.Nodup.sublist ((List.filter_sublist descs).map Descriptor.name) hnd
    · rw [if_neg hbl]
      exact hnd
  exact ((hperm.map Descriptor.name).nodup_iff).mpr h2

theorem count_hotPhase (active : List (String × Feature)) :
    ∀ (ordered : List Descriptor) (d : Descriptor),
    (ordered.map Descriptor.name).Nodup → d ∈ ordered →
    (∀ d2 ∈ ordered, List.lookup d2.name active = some d2.create) →
    (hotReloadPhase active ordered).count (Ev.hotReloadE d.name) =
      (if d.create.hasHotReloadComplete then 1 else 0) := by
  intro ordered
  induction ordered with
  | nil => intro d _ hm; cases hm
  | cons d1 rest ih =>
    intro d hnd hm hlk
    rw [List.map_cons, List.nodup_cons] at hnd
    have hl1 := hlk d1 (List.mem_cons_self _ _)
    have htail0 : ∀ n, n ∉ rest.map Descriptor.name →
        (hotReloadPhase active rest).count (Ev.hotReloadE n) = 0 := by
      intro n hn
      rw [List.count_eq_zero]
      intro hmem
      rcases hotReloadPhase_shape active rest _ hmem with ⟨d2, hd2, he⟩
      apply hn
      rw [Ev.hotReloadE.injEq] at he
      rw [he]
      exact List.mem_map_of_mem Descriptor.name hd2
    rw [hotReloadPhase, List.filterMap_cons, hl1]
    dsimp only
    rcases List.mem_cons.mp hm with he | ht
    · subst he
      by_cases hh : d.create.hasHotReloadComplete = true
      · rw [if_pos hh, if_pos hh]
        rw [List.count_cons_self]
        rw [show List.filterMap _ rest = hotReloadPhase active rest from rfl]
        rw [htail0 d.name hnd.1]
      · rw [if_neg hh, if_neg hh]
        rw [show List.filterMap _ rest = hotReloadPhase active rest from rfl]
        rw [htail0 d.name hnd.1]
    · have hne : d1.name ≠ d.name := by
        intro he2
        apply hnd.1
        rw [he2]
        exact List.mem_map_of_mem Descriptor.name ht
      have hrest := ih d hnd.2 ht (fun d2 hd2 => hlk d2 (List.mem_cons_of_mem _ hd2))
      by_cases hh : d1.create.hasHotReloadComplete = true
      · rw [if_pos hh]
        rw [List.count_cons_of_ne (by simpa using fun he2 => hne he2.symm)]
        rw [show List.filterMap _ rest = hotReloadPhase active rest from rfl]
        exact hrest
      · rw [if_neg hh]
        rw [show List.filterMap _ rest = hotReloadPhase active rest from rfl]
        exact hrest

theorem c6_restore_before_init_thm :
    (∀ (descs : List Descriptor) (enabled : Option (List String)) (n : String),
       Ev.restoreE n ∉ freshBootTrace descs enabled) ∧
    (∀ (descs : List Descriptor) (enabled : Option (List String))
       (ckpt : List (String × JSVal)) (cp : Nat) (i j : Nat) (n m : String),
       (rebuildTrace descs enabled ckpt cp)[i]? = some (Ev.restoreE n) →
       (rebuildTrace descs enabled ckpt cp)[j]? = some (Ev.initE m) →
       i < j) := by
  constructor
  · intro descs enabled n hmem
    rw [freshBootTrace] at hmem
    rcases List.mem_map.mp hmem with ⟨d, -, he⟩
    cases he
  · intro descs enabled ckpt cp i j n m hgi hgj
    apply before_of_eq_append (rebuildTrace descs enabled ckpt cp)
      (restorePhase (createPluginInstances (getOrderedPlugins descs enabled)) ckpt
        (getOrderedPlugins descs enabled))
      (initPhase (createPluginInstances (getOrderedPlugins descs enabled))
          (getOrderedPlugins descs enabled) ++
        ([Ev.thinkStartE] ++
          (if 0 < cp then
            hotReloadPhase (createPluginInstances (getOrderedPlugins descs enabled))
              (getOrderedPlugins descs enabled)
           else [])))
      (fun e => ∃ n2, e = Ev.restoreE n2) (fun e => ∃ m2, e = Ev.initE m2)
      ?_ ?_ ?_ i j _ _ hgi hgj ⟨n, rfl⟩ ⟨m, rfl⟩
    · simp [rebuildTrace, List.append_assoc]
    · intro e he hP
      rcases hP with ⟨n2, rfl⟩
      rcases List.mem_append.mp he with h1 | h2
      · rcases initPhase_shape _ _ _ h1 with ⟨n3, he3⟩
        cases he3
      · rcases List.mem_append.mp h2 with h3 | h4
        · rcases List.mem_singleton.mp h3
        · by_cases hcp : 0 < cp
          · rw [if_pos hcp] at h4
            rcases hotReloadPhase_shape _ _ _ h4 with ⟨d, -, he4⟩
            cases he4
          · rw [if_neg hcp] at h4
            cases h4
    · intro e he hQ
      rcases hQ with ⟨m2, rfl⟩
      rcases restorePhase_shape _ _ _ _ he with ⟨n3, he3⟩
      cases he3

theorem c5_hot_reload_thm (descs : List Descriptor) (enabled : Option (List String))
    (ckpt : List (String × JSVal)) (cp : Nat) (hcp : 0 < cp)
    (hnd : (descs.map Descriptor.name).Nodup) :
    (∀ d ∈ getOrderedPlugins descs enabled,
       d.create.hasHotReloadComplete = true →
       (rebuildTrace descs enabled ckpt cp).count (Ev.hotReloadE d.name) = 1) ∧
    (∀ d ∈ getOrderedPlugins descs enabled,
       Ev.initE d.name ∈ rebuildTrace descs enabled ckpt cp) ∧
    (∀ (i j : Nat) (n m : String),
       (rebuildTrace descs enabled ckpt cp)[i]? = some (Ev.initE n) →
       (rebuildTrace descs enabled ckpt cp)[j]? = some (Ev.hotReloadE m) →
       i < j) := by
  have hndo := nodup_ordered descs enabled hnd
  have hlk : ∀ d2 ∈ getOrderedPlugins descs enabled,
      List.lookup d2.name
        (createPluginInstances (getOrderedPlugins descs enabled)) =
        some d2.create := by
    intro d2 hd2
    exact lookup_createPluginInstances _ [] d2 hd2 hndo
  refine ⟨?_, ?_, ?_⟩
  · intro d hd hh
    rw [rebuildTrace]
    rw [List.count_append, List.count_append, List.count_append]
    have hr0 : (restorePhase (createPluginInstances (getOrderedPlugins descs enabled))
        ckpt (getOrderedPlugins descs enabled)).count (Ev.hotReloadE d.name) = 0 := by
      rw [List.count_eq_zero]
      intro hmem
      rcases restorePhase_shape _ _ _ _ hmem with ⟨n2, he2⟩
      cases he2
    have hi0 : (initPhase (createPluginInstances (getOrderedPlugins descs enabled))
        (getOrderedPlugins descs enabled)).count (Ev.hotReloadE d.name) = 0 := by
      rw [List.count_eq_zero]
      intro hmem
      rcases initPhase_shape _ _ _ hmem with ⟨n2, he2⟩
      cases he2
    have ht0 : ([Ev.thinkStartE] : List Ev).count (Ev.hotReloadE d.name) = 0 := by
      rw [List.count_eq_zero]
      intro hmem
      rcases List.mem_singleton.mp hmem
    rw [hr0, hi0, ht0, if_pos hcp]
    rw [count_hotPhase _ _ d hndo hd hlk, if_pos hh]
  · intro d hd
    rw [rebuildTrace]
    have : Ev.initE d.name ∈
        initPhase (createPluginInstances (getOrderedPlugins descs enabled))
          (getOrderedPlugins descs enabled) := by
      apply List.mem_filterMap.mpr
      refine ⟨d, hd, ?_⟩
      rw [hlk d hd]
    simp only [List.mem_append]
    exact Or.inl (Or.inl (Or.inr this))
  · intro i j n m hgi hgj
    apply before_of_eq_append (rebuildTrace descs enabled ckpt cp)
      (restorePhase (createPluginInstances (getOrderedPlugins descs enabled)) ckpt
          (getOrderedPlugins descs enabled) ++
        initPhase (createPluginInstances (getOrderedPlugins descs enabled))
          (getOrderedPlugins descs enabled) ++ [Ev.thinkStartE])
      (if 0 < cp then
        hotReloadPhase (createPluginInstances (getOrderedPlugins descs enabled))
          (getOrderedPlugins descs enabled)
       else [])
      (fun e => ∃ n2, e = Ev.initE n2) (fun e => ∃ m2, e = Ev.hotReloadE m2)
      ?_ ?_ ?_ i j _ _ hgi hgj ⟨n, rfl⟩ ⟨m, rfl⟩
    · rw [rebuildTrace]
    · intro e he hP
      rcases hP with ⟨n2, rfl⟩
      by_cases hcp2 : 0 < cp
      · rw [if_pos hcp2] at he
        rcases hotReloadPhase_shape _ _ _ he with ⟨d, -, he2⟩
        cases he2
      · rw [if_neg hcp2] at he
        cases he
    · intro e he hQ
      rcases hQ with ⟨m2, rfl⟩
      rcases List.mem_append.mp he with h1 | h2
      · rcases List.mem_append.mp h1 with h3 | h4
        · rcases restorePhase_shape _ _ _ _ h3 with ⟨n3, he3⟩
          cases he3
        · rcases initPhase_shape _ _ _ h4 with ⟨n3, he3⟩
          cases he3
      · rcases List.mem_singleton.mp h2

/-- C6: on fresh boot `restoreState` is never called on any plugin, and on
checkpoint rebuild every `restoreState` call precedes every `init()` call
(so a plugin's restore, if it happens at all, completes before its own
`init()`). -/
theorem c6_restore_before_init :
    (∀ (descs : List Descriptor) (enabled : Option (List String)) (n : String),
       Ev.restoreE n ∉ freshBootTrace descs enabled) ∧
    (∀ (descs : List Descriptor) (enabled : Option (List String))
       (ckpt : List (String × JSVal)) (cp : Nat) (i j : Nat) (n m : String),
       (rebuildTrace descs enabled ckpt cp)[i]? = some (Ev.restoreE n) →
       (rebuildTrace descs enabled ckpt cp)[j]? = some (Ev.initE m) →
       i < j) :=
  c6_restore_before_init_thm

/-- C5 (amended): in every checkpoint cycle during which at least one
connected player is present, each plugin implementing `onHotReloadComplete`
has that hook invoked exactly once, every plugin of the rebuilt set has its
`init()` call in the trace, and every `init()` call precedes every
`onHotReloadComplete` invocation. -/
theorem c5_hotReloadComplete_once_after_init
    (descs : List Descriptor) (enabled : Option (List String))
    (ckpt : List (String × JSVal)) (cp : Nat) (hcp : 0 < cp)
    (hnd : (descs.map Descriptor.name).Nodup) :
    (∀ d ∈ getOrderedPlugins descs enabled,
       d.create.hasHotReloadComplete = true →
       (rebuildTrace descs enabled ckpt cp).count (Ev.hotReloadE d.name) = 1) ∧
    (∀ d ∈ getOrderedPlugins descs enabled,
       Ev.initE d.name ∈ rebuildTrace descs enabled ckpt cp) ∧
    (∀ (i j : Nat) (n m : String),
       (rebuildTrace descs enabled ckpt cp)[i]? = some (Ev.initE n) →
       (rebuildTrace descs enabled ckpt cp)[j]? = some (Ev.hotReloadE m) →
       i < j) :=
  c5_hot_reload_thm descs enabled ckpt cp hcp hnd

def featH : Feature :=
  { getStateB := GetStateBehavior.returns (JSVal.refV 0), hasRestoreState := true,
    restoreThrows := false, hasHotReloadComplete := true,
    hotReloadThrows := false, damageHook := none }

def dH : Descriptor := { name := "H", priority := none, create := featH }

theorem orderedH : getOrderedPlugins [dH] none = [dH] := by
  simp [getOrderedPlugins, pluginsToLoad, hasEnabledList, List.mergeSort_singleton]

theorem traceH1 : rebuildTrace [dH] none [] 1 =
    [Ev.initE "H", Ev.thinkStartE, Ev.hotReloadE "H"] := by
  rw [rebuildTrace, orderedH]
  simp +decide [createPluginInstances, mapSet, restorePhase, initPhase,
    hotReloadPhase, List.lookup, jsTruthy, dH, featH]

theorem traceH0 : rebuildTrace [dH] none [] 0 = [Ev.initE "H", Ev.thinkStartE] := by
  rw [rebuildTrace, orderedH]
  simp +decide [createPluginInstances, mapSet, restorePhase, initPhase,
    hotReloadPhase, List.lookup, jsTruthy, dH, featH]

theorem traceHR : rebuildTrace [dH] none [("H", JSVal.refV 0)] 0 =
    [Ev.restoreE "H", Ev.initE "H", Ev.thinkStartE] := by
  rw [rebuildTrace, orderedH]
  simp +decide [createPluginInstances, mapSet, restorePhase, initPhase,
    hotReloadPhase, List.lookup, jsTruthy, dH, featH]

/-- C5 counterexample: in a checkpoint cycle with zero connected players,
plugin `H` implements `onHotReloadComplete`, yet the hook is invoked zero
times, not exactly once. -/
theorem c5_counterexample :
    dH.create.hasHotReloadComplete = true ∧
    (rebuildTrace [dH] none [] 0).count (Ev.hotReloadE "H") = 0 := by
  refine ⟨rfl, ?_⟩
  rw [traceH0]
  rfl

/-- Witness for `c5_hotReloadComplete_once_after_init` on a one-plugin
cycle with one connected player. -/
theorem c5_hotReloadComplete_once_after_init_witness :
    (0 < 1 ∧ (([dH] : List Descriptor).map Descriptor.name).Nodup ∧
     dH ∈ getOrderedPlugins [dH] none ∧
     dH.create.hasHotReloadComplete = true) ∧
    (rebuildTrace [dH] none [] 1).count (Ev.hotReloadE "H") = 1 := by
  have hmem : dH ∈ getOrderedPlugins [dH] none := by
    rw [orderedH]
    exact List.mem_singleton.mpr rfl
  refine ⟨⟨Nat.zero_lt_one, by simp, hmem, rfl⟩, ?_⟩
  exact (c5_hotReloadComplete_once_after_init [dH] none [] 1 Nat.zero_lt_one
    (by simp)).1 dH hmem rfl

/-- Witness for `c6_restore_before_init`: concrete one-plugin rebuild whose
trace puts the restore call (index 0) before the init call (index 1). -/
theorem c6_restore_before_init_witness :
    Ev.restoreE "H" ∉ freshBootTrace [dH] none ∧
    (rebuildTrace [dH] none [("H", JSVal.refV 0)] 0)[0]? =
      some (Ev.restoreE "H") ∧
    (rebuildTrace [dH] none [("H", JSVal.refV 0)] 0)[1]? =
      some (Ev.initE "H") ∧
    0 < 1 := by
  have hg0 : (rebuildTrace [dH] none [("H", JSVal.refV 0)] 0)[0]? =
      some (Ev.restoreE "H") := by rw [traceHR]; rfl
  have hg1 : (rebuildTrace [dH] none [("H", JSVal.refV 0)] 0)[1]? =
      some (Ev.initE "H") := by rw [traceHR]; rfl
  exact ⟨c6_restore_before_init.1 [dH] none "H", hg0, hg1,
    c6_restore_before_init.2 [dH] none [("H", JSVal.refV 0)] 0 0 1 "H" "H" hg0 hg1⟩


/-! ## EventBus (`event-bus.ts`)

The bus state is modelled with explicit array identity: `arrays` is a heap
of subscription arrays and `table` is the `Map` from event name to the
address of its array (insertion order preserved).  This captures the
JavaScript aliasing semantics of `emit`, whose `for (const sub of subs)`
iterates the *live* array it captured at entry (index-based, mutations
visible) — the code does **not** snapshot the subscriber list.  A handler
is an index into a table of handler programs (`HTable`); a program is a
list of bus actions executed when the handler is invoked, where `throwA`
models the handler throwing (caught by `emit`).  `emit` returns the list of
subscription ids actually delivered to, in order, and carries fuel because
a handler that keeps subscribing during delivery makes the JS loop run
forever.

`gamemode-orchestrator.ts` apart: `addSubscription` is lines 120-142,
`offSub` lines 153-165, `emit` lines 167-194 of `event-bus.ts` (including
the post-loop removal of delivered `once` subscriptions, which is skipped
for a handler that threw because `toRemove.push` sits after the handler
call inside the `try`).
-/

structure Sub where
  id : Nat
  eventName : String
  handler : Nat
  once : Bool
deriving DecidableEq, Repr

structure BusState where
  arrays : List (List Sub)
  table : List (String × Nat)
  nextId : Nat
deriving DecidableEq, Repr

inductive HAct where
  | onA (e : String) (h : Nat) : HAct
  | onceA (e : String) (h : Nat) : HAct
  | offA (i : Nat) : HAct
  | throwA : HAct
deriving DecidableEq, Repr

abbrev HTable := List (List HAct)

def addSubscription (st : BusState) (e : String) (hIdx : Nat) (once : Bool) :
    BusState :=
  match List.lookup e st.table with
  | some a =>
    { st with
      arrays := st.arrays.set a
        (st.arrays.getD a [] ++ [{ id := st.nextId, eventName := e,
                                   handler := hIdx, once := once }]),
      nextId := st.nextId + 1 }
  | none =>
    { st with
      arrays := st.arrays ++ [[{ id := st.nextId, eventName := e,
                                 handler := hIdx, once := once }]],
      table := st.table ++ [(e, st.arrays.length)],
      nextId := st.nextId + 1 }

def offSub (st : BusState) (idv : Nat) : BusState :=
  match st.table.find? (fun p => (st.arrays.getD p.2 []).any (fun s => s.id == idv)) with
  | none => st
  | some (e, a) =>
    match (st.arrays.getD a []).eraseIdx
        ((st.arrays.getD a []).findIdx (fun s => s.id == idv)) with
    | subs2 =>
      if subs2.isEmpty then
        { st with arrays := st.arrays.set a subs2,
                  table := st.table.filter (fun p => !(p.1 == e)) }
      else { st with arrays := st.arrays.set a subs2 }

def runActs (st : BusState) : List HAct → BusState × Bool
  | [] => (st, false)
  | HAct.throwA :: _ => (st, true)
  | HAct.onA e hh :: rest => runActs (addSubscription st e hh false) rest
  | HAct.onceA e hh :: rest => runActs (addSubscription st e hh true) rest
  | HAct.offA i :: rest => runActs (offSub st i) rest

def emitLoop (tbl : HTable) (a : Nat) : Nat → BusState → Nat → List Nat → List Nat →
    BusState × List Nat × List Nat
  | 0, st, _, toRemove, log => (st, toRemove, log)
  | fuel + 1, st, i, toRemove, log =>
    let subs := st.arrays.getD a []
    if h : i < subs.length then
      match runActs st (tbl.getD (subs.get ⟨i, h⟩).handler []) with
      | (st2, threw) =>
        emitLoop tbl a fuel st2 (i + 1)
          (if !threw && (subs.get ⟨i, h⟩).once then toRemove ++ [(subs.get ⟨i, h⟩).id]
           else toRemove)
          (log ++ [(subs.get ⟨i, h⟩).id])
    else (st, toRemove, log)

def emit (tbl : HTable) (fuel : Nat) (st : BusState) (e : String) :
    BusState × List Nat :=
  match List.lookup e st.table with
  | none => (st, [])
  | some a =>
    if (st.arrays.getD a []).isEmpty then (st, [])
    else
      match emitLoop tbl a fuel st 0 [] [] with
      | (st2, toRemove, log) => (toRemove.foldl offSub st2, log)

def subsAt (st : BusState) (e : String) : List Sub :=
  match List.lookup e st.table with
  | some a => st.arrays.getD a []
  | none => []

def pureProg (prog : List HAct) : Prop := ∀ act ∈ prog, act = HAct.throwA

def pureTable (tbl : HTable) : Prop := ∀ prog ∈ tbl, pureProg prog

theorem pureProg_getD {tbl : HTable} (hp : pureTable tbl) (i : Nat) :
    pureProg (tbl.getD i []) := by
  by_cases hi : i < tbl.length
  · apply hp
    rw [List.getD_eq_getElem?_getD, List.getElem?_eq_getElem hi]
    exact List.getElem_mem _
  · rw [List.getD_eq_getElem?_getD, List.getElem?_eq_none (Nat.le_of_not_lt hi)]
    intro act hact
    cases hact

theorem runActs_pure {prog : List HAct} (hp : pureProg prog) (st : BusState) :
    runActs st prog = (st, !prog.isEmpty) := by
  cases prog with
  | nil => rfl
  | cons act rest =>
    have := hp act (List.mem_cons_self _ _)
    subst this
    rfl

theorem emitLoop_pure (tbl : HTable) (hp : pureTable tbl) (a : Nat) :
    ∀ (fuel : Nat) (st : BusState) (i : Nat) (toRemove log : List Nat),
    (st.arrays.getD a []).length ≤ i + fuel →
    emitLoop tbl a fuel st i toRemove log =
      (st,
       toRemove ++ (((st.arrays.getD a []).drop i).filter
         (fun s => (tbl.getD s.handler []).isEmpty && s.once)).map Sub.id,
       log ++ ((st.arrays.getD a []).drop i).map Sub.id) := by
  intro fuel
  induction fuel with
  | zero =>
    intro st i toRemove log hlen
    rw [emitLoop]
    rw [List.drop_eq_nil_of_le (by omega)]
    simp
  | succ f ih =>
    intro st i toRemove log hlen
    rw [emitLoop]
    by_cases hi : i < (st.arrays.getD a []).length
    · rw [dif_pos hi]
      rw [runActs_pure (pureProg_getD hp _) st]
      dsimp only
      rw [ih st (i + 1) _ _ (by omega)]
      rw [List.drop_eq_getElem_cons hi]
      simp only [List.get_eq_getElem, List.filter_cons, List.map_cons, Bool.not_not]
      by_cases hc : ((List.getD tbl (st.arrays.getD a [])[i].handler []).isEmpty &&
          (st.arrays.getD a [])[i].once) = true
      · rw [if_pos hc, if_pos hc]
        simp [List.append_assoc]
      · rw [if_neg hc, if_neg hc]
        simp [List.append_assoc]
    · rw [dif_neg hi]
      rw [List.drop_eq_nil_of_le (Nat.le_of_not_lt hi)]
      simp

theorem emit_pure_log (tbl : HTable) (hp : pureTable tbl) (st : BusState)
    (e : String) (fuel : Nat) (hfuel : (subsAt st e).length ≤ fuel) :
    (emit tbl fuel st e).2 = (subsAt st e).map Sub.id := by
  rw [emit, subsAt] at *
  rcases hlk : List.lookup e st.table with _ | a <;> rw [hlk] at hfuel <;>
    dsimp only at hfuel ⊢
  · rfl
  · 
    by_cases hemp : (st.arrays.getD a []).isEmpty = true
    · rw [if_pos hemp]
      rw [List.isEmpty_iff.mp hemp]
      rfl
    · rw [if_neg hemp]
      rw [emitLoop_pure tbl hp a fuel st 0 [] [] (by omega)]
      simp

def tblC2 : HTable := [[HAct.onA "x" 1], []]

def stC2 : BusState :=
  { arrays := [[{ id := 1, eventName := "x", handler := 0, once := false }]],
    table := [("x", 0)], nextId := 2 }

theorem c2_counterexample_internal :
    (subsAt stC2 "x").map Sub.id = [1] ∧
    (emit tblC2 10 stC2 "x").2 = [1, 2] := ⟨rfl, rfl⟩

/-- A subscription id is visible through some table entry. -/
def idPresent (st : BusState) (idv : Nat) : Prop :=
  ∃ p ∈ st.table, ∃ s ∈ st.arrays.getD p.2 [], s.id = idv

structure WFBus (st : BusState) : Prop where
  segNodup : ∀ p ∈ st.table, ((st.arrays.getD p.2 []).map Sub.id).Nodup
  idsSeparate : ∀ p1 ∈ st.table, ∀ p2 ∈ st.table,
    ∀ s1 ∈ st.arrays.getD p1.2 [], ∀ s2 ∈ st.arrays.getD p2.2 [],
    s1.id = s2.id → p1.2 = p2.2

theorem getD_set_self (l : List (List Sub)) (a : Nat) (v : List Sub)
    (ha : a < l.length) : (l.set a v).getD a [] = v := by
  rw [List.getD_eq_getElem?_getD, List.getElem?_set_self ha]
  rfl

theorem getD_set_ne (l : List (List Sub)) (a b : Nat) (v : List Sub)
    (hne : b ≠ a) : (l.set a v).getD b [] = l.getD b [] := by
  rw [List.getD_eq_getElem?_getD, List.getElem?_set_ne (fun he => hne he.symm),
    ← List.getD_eq_getElem?_getD]

theorem erase_no_dup (idv : Nat) :
    ∀ (l : List Sub) (i : Nat) (h : i < l.length), (l.map Sub.id).Nodup →
    (l.get ⟨i, h⟩).id = idv → idv ∉ (l.eraseIdx i).map Sub.id := by
  intro l
  induction l with
  | nil => intro i h; cases h
  | cons s t ih =>
    intro i h hnd hid
    rw [List.map_cons, List.nodup_cons] at hnd
    cases i with
    | zero =>
      rw [List.eraseIdx_cons_zero]
      simp only [List.get] at hid
      rw [← hid]
      exact hnd.1
    | succ i2 =>
      rw [List.eraseIdx_cons_succ, List.map_cons]
      simp only [List.get] at hid
      intro hmem
      rcases List.mem_cons.mp hmem with he | ht
      · apply hnd.1
        rw [← he, ← hid]
        apply List.mem_map_of_mem Sub.id
        have h2 : i2 < t.length := by
          simp at h
          omega
        exact List.get_mem t _ h2
      · exact ih i2 (by simp at h; omega) hnd.2 hid ht

theorem offSub_not_present {st : BusState} {idv : Nat}
    (hnp : ¬ idPresent st idv) : offSub st idv = st := by
  have hnone : st.table.find?
      (fun p => (st.arrays.getD p.2 []).any (fun s => s.id == idv)) = none := by
    rw [List.find?_eq_none]
    intro p hp hq
    apply hnp
    rcases List.any_eq_true.mp hq with ⟨s, hs, hsid⟩
    exact ⟨p, hp, s, hs, by simpa using hsid⟩
  rw [offSub, hnone]

theorem addr_lt_of_find {st : BusState} {idv : Nat} {e : String} {a : Nat}
    (hfind : st.table.find?
      (fun p => (st.arrays.getD p.2 []).any (fun s => s.id == idv)) = some (e, a)) :
    a < st.arrays.length := by
  by_contra hge
  have hpred := List.find?_some hfind
  rw [show st.arrays.getD a [] = [] from
    List.getD_eq_default _ _ (Nat.le_of_not_lt hge)] at hpred
  cases hpred

theorem exists_id_of_find {st : BusState} {idv : Nat} {e : String} {a : Nat}
    (hfind : st.table.find?
      (fun p => (st.arrays.getD p.2 []).any (fun s => s.id == idv)) = some (e, a)) :
    ∃ s ∈ st.arrays.getD a [], s.id = idv := by
  have hpred := List.find?_some hfind
  rcases List.any_eq_true.mp hpred with ⟨s, hs, hsid⟩
  exact ⟨s, hs, by simpa using hsid⟩

theorem offSub_arrays_sub {st : BusState} {idv : Nat} :
    ∀ b, ∀ s ∈ (offSub st idv).arrays.getD b [], s ∈ st.arrays.getD b [] := by
  intro b s hs
  rcases hfind : st.table.find?
      (fun p => (st.arrays.getD p.2 []).any (fun s => s.id == idv)) with _ | ea
  · rw [offSub, hfind] at hs
    exact hs
  · rcases ea with ⟨e, a⟩
    rw [offSub, hfind] at hs
    dsimp only at hs
    by_cases hb : b = a
    · subst hb
      have hlen := addr_lt_of_find hfind
      split at hs <;>
        (dsimp only at hs
         rw [getD_set_self _ _ _ hlen] at hs
         exact (List.eraseIdx_sublist _ _).subset hs)
    · split at hs <;>
        (dsimp only at hs
         rw [getD_set_ne _ _ _ _ hb] at hs
         exact hs)

theorem offSub_table_sub {st : BusState} {idv : Nat} :
    ∀ p ∈ (offSub st idv).table, p ∈ st.table := by
  intro p hp
  rcases hfind : st.table.find?
      (fun p => (st.arrays.getD p.2 []).any (fun s => s.id == idv)) with _ | ea
  · rw [offSub, hfind] at hp
    exact hp
  · rcases ea with ⟨e, a⟩
    rw [offSub, hfind] at hp
    dsimp only at hp
    split at hp
    · exact List.mem_of_mem_filter hp
    · exact hp

theorem offSub_mono {st : BusState} {j idv : Nat} (hnp : ¬ idPresent st idv) :
    ¬ idPresent (offSub st j) idv := by
  rintro ⟨p, hp, s, hs, hsid⟩
  exact hnp ⟨p, offSub_table_sub p hp, s, offSub_arrays_sub p.2 s hs, hsid⟩

theorem offSub_wf {st : BusState} {idv : Nat} (hw : WFBus st) :
    WFBus (offSub st idv) := by
  constructor
  · intro p hp
    apply List.Nodup.sublist _ (hw.segNodup p (offSub_table_sub p hp))
    apply List.Sublist.map
    -- segment of offSub is a sublist of the original segment
    rcases hfind : st.table.find?
        (fun q => (st.arrays.getD q.2 []).any (fun s => s.id == idv)) with _ | ea
    · rw [offSub, hfind]
      try exact List.Sublist.refl _
    · rcases ea with ⟨e, a⟩
      rw [offSub, hfind]
      dsimp only
      by_cases hb : p.2 = a
      · rw [hb]
        have hlen := addr_lt_of_find hfind
        split <;>
          (dsimp only
           rw [getD_set_self _ _ _ hlen]
           try exact List.eraseIdx_sublist _ _)
      · split <;>
          (dsimp only
           rw [getD_set_ne _ _ _ _ hb]
           try exact List.Sublist.refl _)
  · intro p1 hp1 p2 hp2 s1 hs1 s2 hs2 hid
    exact hw.idsSeparate p1 (offSub_table_sub p1 hp1) p2 (offSub_table_sub p2 hp2)
      s1 (offSub_arrays_sub p1.2 s1 hs1) s2 (offSub_arrays_sub p2.2 s2 hs2) hid

theorem offSub_removes {st : BusState} {idv : Nat} (hw : WFBus st) :
    ¬ idPresent (offSub st idv) idv := by
  rcases hfind : st.table.find?
      (fun p => (st.arrays.getD p.2 []).any (fun s => s.id == idv)) with _ | ea
  · rw [offSub, hfind]
    rintro ⟨p, hp, s, hs, hsid⟩
    have := List.find?_eq_none.mp hfind p hp
    apply this
    exact List.any_eq_true.mpr ⟨s, hs, by simpa using hsid⟩
  · rcases ea with ⟨e, a⟩
    have hlen := addr_lt_of_find hfind
    have hmem : (e, a) ∈ st.table := List.mem_of_find?_eq_some hfind
    have hexist := exists_id_of_find hfind
    have hilt : (st.arrays.getD a []).findIdx (fun s => s.id == idv) <
        (st.arrays.getD a []).length :=
      List.findIdx_lt_length_of_exists
        (by rcases hexist with ⟨s, hs, hsid⟩; exact ⟨s, hs, by simpa using hsid⟩)
    have hgid : ((st.arrays.getD a []).get ⟨_, hilt⟩).id = idv := by
      have := @List.findIdx_getElem _ (fun s => s.id == idv) (st.arrays.getD a []) hilt
      simpa using this
    have herase : idv ∉ ((st.arrays.getD a []).eraseIdx
        ((st.arrays.getD a []).findIdx (fun s => s.id == idv))).map Sub.id :=
      erase_no_dup idv (st.arrays.getD a []) _ hilt
        (hw.segNodup (e, a) hmem) hgid
    rintro ⟨p, hp, s, hs, hsid⟩
    have hpt : p ∈ st.table := offSub_table_sub p hp
    rw [offSub, hfind] at hp hs
    dsimp only at hp hs
    by_cases hb : p.2 = a
    · rw [hb] at hs
      have hs2 : s ∈ (st.arrays.getD a []).eraseIdx
          ((st.arrays.getD a []).findIdx (fun s => s.id == idv)) := by
        split at hs <;>
          (dsimp only at hs
           rw [getD_set_self _ _ _ hlen] at hs
           exact hs)
      apply herase
      have hmm2 : s.id ∈ ((st.arrays.getD a []).eraseIdx
          ((st.arrays.getD a []).findIdx (fun s => s.id == idv))).map Sub.id :=
        List.mem_map_of_mem Sub.id hs2
      rw [hsid] at hmm2
      exact hmm2
    · have hs2 : s ∈ st.arrays.getD p.2 [] := by
        split at hs <;>
          (dsimp only at hs
           rw [getD_set_ne _ _ _ _ hb] at hs
           exact hs)
      rcases hexist with ⟨s0, hs0, hs0id⟩
      exact hb (hw.idsSeparate p hpt (e, a) hmem s hs2 s0 hs0 (by rw [hsid, hs0id]))

theorem fold_off_keeps_absent {idv : Nat} :
    ∀ (L : List Nat) (st : BusState), ¬ idPresent st idv →
    ¬ idPresent (L.foldl offSub st) idv := by
  intro L
  induction L with
  | nil => intro st h; exact h
  | cons x rest ih =>
    intro st h
    rw [List.foldl_cons]
    exact ih _ (offSub_mono h)

theorem fold_off_removes {idv : Nat} :
    ∀ (L : List Nat) (st : BusState), WFBus st → idv ∈ L →
    ¬ idPresent (L.foldl offSub st) idv := by
  intro L
  induction L with
  | nil => intro st _ hm; cases hm
  | cons x rest ih =>
    intro st hw hm
    rw [List.foldl_cons]
    by_cases hx : x = idv
    · subst hx
      exact fold_off_keeps_absent rest _ (offSub_removes hw)
    · rcases List.mem_cons.mp hm with he | ht
      · exact absurd he.symm hx
      · exact ih _ (offSub_wf hw) ht

/-- All subscription ids stored anywhere in the subscriber arrays. -/
def allIds (st : BusState) : List Nat :=
  (st.arrays.map (fun seg => seg.map Sub.id)).flatten

/-- Global well-formedness of a bus state, true of every state reachable
from a fresh bus: ids come from the `++this.nextSubscriptionId` counter, so
they are globally distinct and below the counter, and every `Map` entry
points at an existing subscriber array. -/
def GWF (st : BusState) : Prop :=
  (allIds st).Nodup ∧ (∀ i ∈ allIds st, i < st.nextId) ∧
  ∀ p ∈ st.table, p.2 < st.arrays.length

theorem getD_eq_get_of_lt (L : List (List Sub)) (b : Nat)
    (hb : b < L.length) : L.getD b [] = L.get ⟨b, hb⟩ := by
  rw [List.getD_eq_getElem?_getD, List.getElem?_eq_getElem hb]
  rfl

theorem mem_allIds {st : BusState} {b : Nat} {s : Sub}
    (hs : s ∈ st.arrays.getD b []) : s.id ∈ allIds st := by
  by_cases hb : b < st.arrays.length
  · rw [allIds, List.mem_flatten]
    rw [getD_eq_get_of_lt _ _ hb] at hs
    exact ⟨(st.arrays.get ⟨b, hb⟩).map Sub.id,
      List.mem_map_of_mem _ (List.get_mem _ _ _), List.mem_map_of_mem _ hs⟩
  · rw [List.getD_eq_default _ _ (Nat.le_of_not_lt hb)] at hs
    cases hs

theorem allIds_parts {st : BusState} (hnd : (allIds st).Nodup) :
    (∀ l ∈ st.arrays.map (fun seg => seg.map Sub.id), l.Nodup) ∧
    (st.arrays.map (fun seg => seg.map Sub.id)).Pairwise List.Disjoint := by
  rw [allIds] at hnd
  exact List.nodup_flatten.mp hnd

theorem seg_ids_nodup {st : BusState} (hw : GWF st) (b : Nat) :
    ((st.arrays.getD b []).map Sub.id).Nodup := by
  by_cases hb : b < st.arrays.length
  · rw [getD_eq_get_of_lt _ _ hb]
    exact (allIds_parts hw.1).1 _ (List.mem_map_of_mem _ (List.get_mem _ _ _))
  · rw [List.getD_eq_default _ _ (Nat.le_of_not_lt hb)]
    exact List.nodup_nil

theorem gwf_wfbus {st : BusState} (hw : GWF st) : WFBus st := by
  constructor
  · intro p _
    exact seg_ids_nodup hw p.2
  · intro p1 _ p2 _ s1 hs1 s2 hs2 hid
    by_contra hne
    have h1 : p1.2 < st.arrays.length := by
      by_contra hge
      rw [List.getD_eq_default _ _ (Nat.le_of_not_lt hge)] at hs1
      cases hs1
    have h2 : p2.2 < st.arrays.length := by
      by_contra hge
      rw [List.getD_eq_default _ _ (Nat.le_of_not_lt hge)] at hs2
      cases hs2
    have key : ∀ i j (hi : i < st.arrays.length) (hj : j < st.arrays.length),
        i < j →
        List.Disjoint ((st.arrays.get ⟨i, hi⟩).map Sub.id)
          ((st.arrays.get ⟨j, hj⟩).map Sub.id) := by
      intro i j hi hj hij
      have hp := List.pairwise_iff_getElem.mp (allIds_parts hw.1).2 i j
        (by simpa using hi) (by simpa using hj) hij
      simpa using hp
    have hm1 : s1.id ∈ (st.arrays.get ⟨p1.2, h1⟩).map Sub.id := by
      rw [← getD_eq_get_of_lt _ _ h1]
      exact List.mem_map_of_mem _ hs1
    have hm2 : s1.id ∈ (st.arrays.get ⟨p2.2, h2⟩).map Sub.id := by
      rw [← getD_eq_get_of_lt _ _ h2, hid]
      exact List.mem_map_of_mem _ hs2
    rcases Nat.lt_or_ge p1.2 p2.2 with hlt | hge
    · exact key _ _ h1 h2 hlt hm1 hm2
    · have hlt2 : p2.2 < p1.2 := by omega
      exact key _ _ h2 h1 hlt2 hm2 hm1

theorem eq_of_mem_map_nodup (l : List Sub) (hnd : (l.map Sub.id).Nodup)
    (s1 s2 : Sub) (h1 : s1 ∈ l) (h2 : s2 ∈ l) (hid : s1.id = s2.id) :
    s1 = s2 := by
  induction l with
  | nil => cases h1
  | cons x t ih =>
    rw [List.map_cons, List.nodup_cons] at hnd
    rcases List.mem_cons.mp h1 with he1 | ht1 <;>
      rcases List.mem_cons.mp h2 with he2 | ht2
    · rw [he1, he2]
    · exfalso
      apply hnd.1
      rw [← he1, hid]
      exact List.mem_map_of_mem _ ht2
    · exfalso
      apply hnd.1
      rw [← he2, ← hid]
      exact List.mem_map_of_mem _ ht1
    · exact ih hnd.2 ht1 ht2

/-- Reachability of bus states during one `emit` call: the id counter only
grows, global well-formedness is maintained, and every subscription whose
id predates the call is one of the call-time subscriptions of the same
array — handlers can only remove old subscriptions or add fresh-id ones. -/
structure Evolves (st0 st : BusState) : Prop where
  nextLe : st0.nextId ≤ st.nextId
  wf : GWF st
  old_mem : ∀ b, ∀ s ∈ st.arrays.getD b [], s.id < st0.nextId →
    s ∈ st0.arrays.getD b []

theorem evolves_refl {st : BusState} (hw : GWF st) : Evolves st st :=
  ⟨Nat.le_refl _, hw, fun _ _ hs _ => hs⟩

theorem addSub_nextId (st : BusState) (e : String) (hIdx : Nat) (o : Bool) :
    (addSubscription st e hIdx o).nextId = st.nextId + 1 := by
  rcases hlk : List.lookup e st.table with _ | a <;> rw [addSubscription, hlk]

theorem getD_append_lt (L M : List (List Sub)) (b : Nat)
    (hb : b < L.length) : (L ++ M).getD b [] = L.getD b [] := by
  rw [List.getD_eq_getElem?_getD, List.getElem?_append_left hb,
    ← List.getD_eq_getElem?_getD]

theorem getD_append_self (L : List (List Sub)) (v : List Sub) :
    (L ++ [v]).getD L.length [] = v := by
  rw [List.getD_eq_getElem?_getD, List.getElem?_append_right (Nat.le_refl _)]
  simp

theorem getD_append_gt (L : List (List Sub)) (v : List Sub) (b : Nat)
    (hb : L.length + 1 ≤ b) : (L ++ [v]).getD b [] = [] := by
  apply List.getD_eq_default
  rw [List.length_append]
  simpa using hb

theorem addSub_mem {st : BusState} {e : String} {hIdx : Nat} {o : Bool}
    {b : Nat} {s : Sub}
    (hs : s ∈ (addSubscription st e hIdx o).arrays.getD b []) :
    s ∈ st.arrays.getD b [] ∨ s.id = st.nextId := by
  rw [addSubscription] at hs
  rcases hlk : List.lookup e st.table with _ | a <;> rw [hlk] at hs <;>
    dsimp only at hs
  · by_cases hb : b < st.arrays.length
    · rw [getD_append_lt _ _ _ hb] at hs
      exact Or.inl hs
    · by_cases hb2 : b = st.arrays.length
      · subst hb2
        rw [getD_append_self] at hs
        rcases List.mem_singleton.mp hs with rfl
        exact Or.inr rfl
      · rw [getD_append_gt _ _ _ (by omega)] at hs
        cases hs
  · by_cases ha : a < st.arrays.length
    · by_cases hb : b = a
      · subst hb
        rw [getD_set_self _ _ _ ha] at hs
        rcases List.mem_append.mp hs with h | h
        · exact Or.inl h
        · rcases List.mem_singleton.mp h with rfl
          exact Or.inr rfl
      · rw [getD_set_ne _ _ _ _ hb] at hs
        exact Or.inl hs
    · rw [List.set_eq_of_length_le (Nat.le_of_not_lt ha)] at hs
      exact Or.inl hs

theorem flatten_map_set_append (L : List (List Sub)) :
    ∀ (a : Nat) (x : Sub), a < L.length →
    (((L.set a (L.getD a [] ++ [x])).map (fun seg => seg.map Sub.id)).flatten).Perm
      ((L.map (fun seg => seg.map Sub.id)).flatten ++ [x.id]) := by
  induction L with
  | nil => intro a x ha; cases ha
  | cons y t ih =>
    intro a x ha
    cases a with
    | zero =>
      simp only [List.set_cons_zero, List.getD_cons_zero, List.map_cons,
        List.flatten_cons, List.map_append, List.map_nil]
      rw [List.append_assoc, List.append_assoc]
      exact List.Perm.append_left _ List.perm_append_comm
    | succ a2 =>
      simp only [List.set_cons_succ, List.getD_cons_succ, List.map_cons,
        List.flatten_cons]
      rw [List.append_assoc]
      exact List.Perm.append_left _ (ih a2 x (by simpa using ha))

theorem flatten_map_set_sub (L : List (List Sub)) :
    ∀ (a : Nat) (v : List Sub), v.Sublist (L.getD a []) →
    (((L.set a v).map (fun seg => seg.map Sub.id)).flatten).Sublist
      ((L.map (fun seg => seg.map Sub.id)).flatten) := by
  induction L with
  | nil =>
    intro a v hv
    rw [List.set_nil]
  | cons y t ih =>
    intro a v hv
    cases a with
    | zero =>
      simp only [List.set_cons_zero, List.map_cons, List.flatten_cons]
      rw [List.getD_cons_zero] at hv
      exact List.Sublist.append (List.Sublist.map _ hv) (List.Sublist.refl _)
    | succ a2 =>
      simp only [List.set_cons_succ, List.map_cons, List.flatten_cons]
      rw [List.getD_cons_succ] at hv
      exact List.Sublist.append (List.Sublist.refl _) (ih a2 v hv)

theorem allIds_addSub (st : BusState)
    (hv : ∀ p ∈ st.table, p.2 < st.arrays.length)
    (e : String) (hIdx : Nat) (o : Bool) :
    (allIds (addSubscription st e hIdx o)).Perm (allIds st ++ [st.nextId]) := by
  rcases hlk : List.lookup e st.table with _ | a <;>
    rw [addSubscription, hlk] <;> dsimp only
  · rw [allIds, allIds]
    dsimp only
    rw [List.map_append, List.flatten_append]
    simp only [List.map_cons, List.map_nil, List.flatten_cons,
      List.flatten_nil, List.append_nil]
    exact List.Perm.refl _
  · have ha : a < st.arrays.length := hv (e, a) (lookup_mem_pair hlk)
    rw [allIds, allIds]
    dsimp only
    exact flatten_map_set_append st.arrays a _ ha

theorem addSub_tableValid {st : BusState}
    (hv : ∀ p ∈ st.table, p.2 < st.arrays.length) (e : String) (hIdx : Nat)
    (o : Bool) : ∀ p ∈ (addSubscription st e hIdx o).table,
      p.2 < (addSubscription st e hIdx o).arrays.length := by
  rcases hlk : List.lookup e st.table with _ | a <;>
    rw [addSubscription, hlk] <;> dsimp only
  · intro p hp
    rw [List.length_append]
    rcases List.mem_append.mp hp with h | h
    · have := hv p h
      omega
    · rcases List.mem_singleton.mp h with rfl
      simp
  · intro p hp
    rw [List.length_set]
    exact hv p hp

theorem gwf_addSub {st : BusState} (hw : GWF st) (e : String) (hIdx : Nat)
    (o : Bool) : GWF (addSubscription st e hIdx o) := by
  have hperm := allIds_addSub st hw.2.2 e hIdx o
  refine ⟨?_, ?_, addSub_tableValid hw.2.2 e hIdx o⟩
  · rw [hperm.nodup_iff, List.nodup_append]
    refine ⟨hw.1, List.nodup_singleton _, ?_⟩
    intro x hx hx2
    rcases List.mem_singleton.mp hx2 with rfl
    exact absurd (hw.2.1 _ hx) (Nat.lt_irrefl _)
  · intro i hi
    rw [addSub_nextId]
    rcases List.mem_append.mp (hperm.mem_iff.mp hi) with h | h
    · have := hw.2.1 i h
      omega
    · rcases List.mem_singleton.mp h with rfl
      omega

theorem allIds_offSub (st : BusState) (idv : Nat) :
    (allIds (offSub st idv)).Sublist (allIds st) := by
  rcases hfind : st.table.find?
      (fun p => (st.arrays.getD p.2 []).any (fun s => s.id == idv)) with _ | ea
  · rw [offSub, hfind]
  · rcases ea with ⟨e, a⟩
    rw [offSub, hfind]
    dsimp only
    split <;>
      (rw [allIds, allIds]
       dsimp only
       exact flatten_map_set_sub st.arrays a _ (List.eraseIdx_sublist _ _))

theorem offSub_nextId (st : BusState) (idv : Nat) :
    (offSub st idv).nextId = st.nextId := by
  rcases hfind : st.table.find?
      (fun p => (st.arrays.getD p.2 []).any (fun s => s.id == idv)) with _ | ea
  · rw [offSub, hfind]
  · rcases ea with ⟨e, a⟩
    rw [offSub, hfind]
    dsimp only
    split <;> rfl

theorem offSub_arrays_length (st : BusState) (idv : Nat) :
    (offSub st idv).arrays.length = st.arrays.length := by
  rcases hfind : st.table.find?
      (fun p => (st.arrays.getD p.2 []).any (fun s => s.id == idv)) with _ | ea
  · rw [offSub, hfind]
  · rcases ea with ⟨e, a⟩
    rw [offSub, hfind]
    dsimp only
    split <;>
      (dsimp only
       rw [List.length_set])

theorem gwf_offSub {st : BusState} (hw : GWF st) (idv : Nat) :
    GWF (offSub st idv) := by
  refine ⟨List.Nodup.sublist (allIds_offSub st idv) hw.1, ?_, ?_⟩
  · intro i hi
    rw [offSub_nextId]
    exact hw.2.1 i ((allIds_offSub st idv).subset hi)
  · intro p hp
    rw [offSub_arrays_length]
    exact hw.2.2 p (offSub_table_sub p hp)

theorem evolves_addSub {st0 st : BusState} (hev : Evolves st0 st)
    (e : String) (hIdx : Nat) (o : Bool) :
    Evolves st0 (addSubscription st e hIdx o) := by
  refine ⟨?_, gwf_addSub hev.wf e hIdx o, ?_⟩
  · rw [addSub_nextId]
    have := hev.nextLe
    omega
  · intro b s hs hlt
    rcases addSub_mem hs with h | h
    · exact hev.old_mem b s h hlt
    · exfalso
      have := hev.nextLe
      omega

theorem evolves_offSub {st0 st : BusState} (hev : Evolves st0 st)
    (idv : Nat) : Evolves st0 (offSub st idv) := by
  refine ⟨?_, gwf_offSub hev.wf idv, ?_⟩
  · rw [offSub_nextId]
    exact hev.nextLe
  · intro b s hs hlt
    exact hev.old_mem b s (offSub_arrays_sub b s hs) hlt

theorem evolves_runActs {st0 : BusState} :
    ∀ (prog : List HAct) (st : BusState), Evolves st0 st →
    Evolves st0 (runActs st prog).1 := by
  intro prog
  induction prog with
  | nil => intro st hev; exact hev
  | cons act rest ih =>
    intro st hev
    cases act with
    | onA e hh =>
      rw [runActs]
      exact ih _ (evolves_addSub hev e hh false)
    | onceA e hh =>
      rw [runActs]
      exact ih _ (evolves_addSub hev e hh true)
    | offA i =>
      rw [runActs]
      exact ih _ (evolves_offSub hev i)
    | throwA =>
      rw [runActs]
      exact hev

theorem runActs_no_throw :
    ∀ (prog : List HAct), HAct.throwA ∉ prog → ∀ st : BusState,
    (runActs st prog).2 = false := by
  intro prog
  induction prog with
  | nil => intro _ st; rfl
  | cons act rest ih =>
    intro hnt st
    have hnr : HAct.throwA ∉ rest := fun h => hnt (List.mem_cons_of_mem _ h)
    cases act with
    | onA e hh =>
      rw [runActs]
      exact ih hnr _
    | onceA e hh =>
      rw [runActs]
      exact ih hnr _
    | offA i =>
      rw [runActs]
      exact ih hnr _
    | throwA => exact absurd (List.mem_cons_self _ _) hnt

theorem emitLoop_toRemove_mono (tbl : HTable) (a : Nat) :
    ∀ (fuel : Nat) (st : BusState) (i : Nat) (toRemove log : List Nat)
    (x : Nat), x ∈ toRemove →
    x ∈ (emitLoop tbl a fuel st i toRemove log).2.1 := by
  intro fuel
  induction fuel with
  | zero =>
    intro st i tr log x hx
    rw [emitLoop]
    exact hx
  | succ f ih =>
    intro st i tr log x hx
    rw [emitLoop]
    by_cases hi : i < (st.arrays.getD a []).length
    · rw [dif_pos hi]
      rcases hr : runActs st
          (tbl.getD ((st.arrays.getD a []).get ⟨i, hi⟩).handler []) with
        ⟨st2, threw⟩
      dsimp only
      apply ih
      split
      · exact List.mem_append_left _ hx
      · exact hx
    · rw [dif_neg hi]
      exact hx

theorem evolves_emitLoop (tbl : HTable) (a : Nat) (st0 : BusState) :
    ∀ (fuel : Nat) (st : BusState) (i : Nat) (toRemove log : List Nat),
    Evolves st0 st →
    Evolves st0 (emitLoop tbl a fuel st i toRemove log).1 := by
  intro fuel
  induction fuel with
  | zero =>
    intro st i tr log hev
    rw [emitLoop]
    exact hev
  | succ f ih =>
    intro st i tr log hev
    rw [emitLoop]
    by_cases hi : i < (st.arrays.getD a []).length
    · rw [dif_pos hi]
      rcases hr : runActs st
          (tbl.getD ((st.arrays.getD a []).get ⟨i, hi⟩).handler []) with
        ⟨st2, threw⟩
      dsimp only
      apply ih
      have h2 := evolves_runActs
        (tbl.getD ((st.arrays.getD a []).get ⟨i, hi⟩).handler []) st hev
      rw [hr] at h2
      exact h2
    · rw [dif_neg hi]
      exact hev

theorem evolves_fold_off {st0 : BusState} :
    ∀ (L : List Nat) (st : BusState), Evolves st0 st →
    Evolves st0 (L.foldl offSub st) := by
  intro L
  induction L with
  | nil => intro st hev; exact hev
  | cons x rest ih =>
    intro st hev
    rw [List.foldl_cons]
    exact ih _ (evolves_offSub hev x)

theorem emitLoop_delivered_removed (tbl : HTable) (a : Nat) (st0 : BusState)
    (hw0 : GWF st0) (s : Sub) (hs : s ∈ st0.arrays.getD a [])
    (honce : s.once = true) (hnothrow : HAct.throwA ∉ tbl.getD s.handler []) :
    ∀ (fuel : Nat) (st : BusState) (i : Nat) (toRemove log : List Nat),
    Evolves st0 st → s.id ∉ log →
    s.id ∈ (emitLoop tbl a fuel st i toRemove log).2.2 →
    s.id ∈ (emitLoop tbl a fuel st i toRemove log).2.1 := by
  intro fuel
  induction fuel with
  | zero =>
    intro st i tr log hev hnl hin
    rw [emitLoop] at hin ⊢
    exact absurd hin hnl
  | succ f ih =>
    intro st i tr log hev hnl hin
    rw [emitLoop] at hin ⊢
    by_cases hi : i < (st.arrays.getD a []).length
    · rw [dif_pos hi] at hin ⊢
      rcases hr : runActs st
          (tbl.getD ((st.arrays.getD a []).get ⟨i, hi⟩).handler []) with
        ⟨st2, threw⟩
      rw [hr] at hin
      dsimp only at hin ⊢
      have hev2 : Evolves st0 st2 := by
        have h2 := evolves_runActs
          (tbl.getD ((st.arrays.getD a []).get ⟨i, hi⟩).handler []) st hev
        rw [hr] at h2
        exact h2
      by_cases hid : ((st.arrays.getD a []).get ⟨i, hi⟩).id = s.id
      · -- the delivered subscription is s itself
        have hmemc : (st.arrays.getD a []).get ⟨i, hi⟩ ∈ st.arrays.getD a [] :=
          List.get_mem _ _ _
        have hslt : s.id < st0.nextId := hw0.2.1 _ (mem_allIds hs)
        have hold : (st.arrays.getD a []).get ⟨i, hi⟩ ∈
            st0.arrays.getD a [] :=
          hev.old_mem a _ hmemc (by rw [hid]; exact hslt)
        have heq : (st.arrays.getD a []).get ⟨i, hi⟩ = s :=
          eq_of_mem_map_nodup _ (seg_ids_nodup hw0 a) _ _ hold hs hid
        have hthrew : threw = false := by
          have h2 := runActs_no_throw (tbl.getD s.handler []) hnothrow st
          rw [← heq] at h2
          rw [hr] at h2
          exact h2
        have hcond : (!threw && ((st.arrays.getD a []).get ⟨i, hi⟩).once)
            = true := by
          rw [hthrew, heq, honce]
          rfl
        rw [if_pos hcond]
        exact emitLoop_toRemove_mono tbl a f st2 (i + 1) _ _ s.id
          (List.mem_append_right _ (List.mem_singleton.mpr hid.symm))
      · have hnl2 : s.id ∉ log ++ [((st.arrays.getD a []).get ⟨i, hi⟩).id] := by
          intro hmm
          rcases List.mem_append.mp hmm with h | h
          · exact hnl h
          · exact hid (List.mem_singleton.mp h).symm
        exact ih st2 (i + 1) _ _ hev2 hnl2 hin
    · rw [dif_neg hi] at hin ⊢
      exact absurd hin hnl

theorem emitLoop_log_ids (tbl : HTable) (a : Nat) (st0 : BusState)
    (e : String) (hta : (e, a) ∈ st0.table) :
    ∀ (fuel : Nat) (st : BusState) (i : Nat) (toRemove log : List Nat),
    Evolves st0 st →
    (∀ x ∈ log, idPresent st0 x ∨ st0.nextId ≤ x) →
    ∀ x ∈ (emitLoop tbl a fuel st i toRemove log).2.2,
      idPresent st0 x ∨ st0.nextId ≤ x := by
  intro fuel
  induction fuel with
  | zero =>
    intro st i tr log hev hlog x hx
    rw [emitLoop] at hx
    exact hlog x hx
  | succ f ih =>
    intro st i tr log hev hlog x hx
    rw [emitLoop] at hx
    by_cases hi : i < (st.arrays.getD a []).length
    · rw [dif_pos hi] at hx
      rcases hr : runActs st
          (tbl.getD ((st.arrays.getD a []).get ⟨i, hi⟩).handler []) with
        ⟨st2, threw⟩
      rw [hr] at hx
      dsimp only at hx
      have hev2 : Evolves st0 st2 := by
        have h2 := evolves_runActs
          (tbl.getD ((st.arrays.getD a []).get ⟨i, hi⟩).handler []) st hev
        rw [hr] at h2
        exact h2
      refine ih st2 (i + 1) _ _ hev2 ?_ x hx
      intro y hy
      rcases List.mem_append.mp hy with h | h
      · exact hlog y h
      · have hysub : y = ((st.arrays.getD a []).get ⟨i, hi⟩).id :=
          List.mem_singleton.mp h
        by_cases hlt : ((st.arrays.getD a []).get ⟨i, hi⟩).id < st0.nextId
        · left
          have hold := hev.old_mem a _ (List.get_mem _ _ _) hlt
          exact ⟨(e, a), hta, _, hold, by rw [hysub]⟩
        · right
          omega
    · rw [dif_neg hi] at hx
      exact hlog x hx

theorem emit_absent_not_logged (tbl : HTable) (st1 : BusState) (idv : Nat)
    (hw : GWF st1) (habs : ¬ idPresent st1 idv) (hlt : idv < st1.nextId)
    (fuel : Nat) (e : String) : idv ∉ (emit tbl fuel st1 e).2 := by
  rcases hlk : List.lookup e st1.table with _ | a <;> rw [emit, hlk] <;>
    dsimp only
  · intro h
    cases h
  · by_cases hemp : (st1.arrays.getD a []).isEmpty = true
    · rw [if_pos hemp]
      intro h
      cases h
    · rw [if_neg hemp]
      rcases hloop : emitLoop tbl a fuel st1 0 [] [] with ⟨st2, tr, log⟩
      dsimp only
      intro hmem
      have hta : (e, a) ∈ st1.table := lookup_mem_pair hlk
      have hchar := emitLoop_log_ids tbl a st1 e hta fuel st1 0 [] []
        (evolves_refl hw) (fun x hx => absurd hx (List.not_mem_nil x)) idv
        (by rw [hloop]; exact hmem)
      rcases hchar with h | h
      · exact habs h
      · omega

theorem emit_delivered_removed (tbl : HTable) (st : BusState) (e : String)
    (fuel : Nat) (hw : GWF st) (s : Sub) (hs : s ∈ subsAt st e)
    (honce : s.once = true) (hnothrow : HAct.throwA ∉ tbl.getD s.handler [])
    (hdeliv : s.id ∈ (emit tbl fuel st e).2) :
    ¬ idPresent (emit tbl fuel st e).1 s.id ∧
    Evolves st (emit tbl fuel st e).1 := by
  have hlkx : ∃ a, List.lookup e st.table = some a ∧
      s ∈ st.arrays.getD a [] ∧ ¬(st.arrays.getD a []).isEmpty = true := by
    rw [subsAt] at hs
    rcases h : List.lookup e st.table with _ | a <;> rw [h] at hs <;>
      dsimp only at hs
    · cases hs
    · refine ⟨a, rfl, hs, ?_⟩
      intro hemp
      rw [List.isEmpty_iff.mp hemp] at hs
      cases hs
  rcases hlkx with ⟨a, hlk, hsa, hnemp⟩
  rw [emit, hlk] at hdeliv ⊢
  dsimp only at hdeliv ⊢
  rw [if_neg hnemp] at hdeliv ⊢
  rcases hloop : emitLoop tbl a fuel st 0 [] [] with ⟨st2, tr, log⟩
  rw [hloop] at hdeliv
  dsimp only at hdeliv ⊢
  have hintr : s.id ∈ tr := by
    have h2 := emitLoop_delivered_removed tbl a st hw s hsa honce hnothrow
      fuel st 0 [] [] (evolves_refl hw) (List.not_mem_nil _)
      (by rw [hloop]; exact hdeliv)
    rw [hloop] at h2
    exact h2
  have hev2 : Evolves st st2 := by
    have h2 := evolves_emitLoop tbl a st fuel st 0 [] [] (evolves_refl hw)
    rw [hloop] at h2
    exact h2
  exact ⟨fold_off_removes tr st2 (gwf_wfbus hev2.wf) hintr,
    evolves_fold_off tr st2 hev2⟩

def tblC8 : HTable := [[HAct.throwA]]

def stC8 : BusState :=
  { arrays := [[{ id := 1, eventName := "x", handler := 0, once := true }]],
    table := [("x", 0)], nextId := 2 }

theorem c8_counterexample_internal :
    (emit tblC8 10 stC8 "x").2 = [1] ∧
    (emit tblC8 10 stC8 "x").1 = stC8 ∧
    (emit tblC8 10 (emit tblC8 10 stC8 "x").1 "x").2 = [1] := ⟨rfl, rfl, rfl⟩

def tblW : HTable := [[]]

def stW : BusState :=
  { arrays := [[{ id := 1, eventName := "x", handler := 0, once := true },
                { id := 2, eventName := "x", handler := 0, once := false }]],
    table := [("x", 0)], nextId := 3 }

/-- C2 counterexample: `emit` iterates the live array, so a handler that
subscribes a new handler to the same event during its own invocation makes
that new handler be invoked by the *same* in-flight delivery: at call time
only subscription 1 existed, yet the delivery log is `[1, 2]`. -/
theorem c2_counterexample :
    (subsAt stC2 "x").map Sub.id = [1] ∧
    (emit tblC2 10 stC2 "x").2 = [1, 2] := c2_counterexample_internal

/-- C2 (amended): provided no handler subscribes or unsubscribes during the
delivery (handler programs perform no bus actions — they may still throw),
`emit e` invokes exactly the handlers subscribed to `e` at the moment
`emit` was called, each exactly once, in subscription order.  Without that
proviso the claim fails (`c2_counterexample`): the code iterates the live
subscriber array instead of a snapshot. -/
theorem c2_emit_delivers_snapshot (tbl : HTable) (hp : pureTable tbl)
    (st : BusState) (e : String) (fuel : Nat)
    (hfuel : (subsAt st e).length ≤ fuel) :
    (emit tbl fuel st e).2 = (subsAt st e).map Sub.id :=
  emit_pure_log tbl hp st e fuel hfuel

/-- Witness for `c2_emit_delivers_snapshot`: two non-mutating subscribers
are delivered to exactly once each, in order. -/
theorem c2_emit_delivers_snapshot_witness :
    (pureTable tblW ∧ (subsAt stW "x").length ≤ 2) ∧
    (emit tblW 2 stW "x").2 = [1, 2] := by
  have hpure : pureTable tblW := by
    intro prog hprog act hact
    rcases List.mem_singleton.mp hprog with rfl
    cases hact
  refine ⟨⟨hpure, by decide⟩, ?_⟩
  rw [c2_emit_delivers_snapshot tblW hpure stW "x" 2 (by decide)]
  rfl

/-- C8 counterexample: a `once` subscription whose handler throws is *not*
removed (`toRemove.push` is unreachable after the throw): the same `once`
handler is invoked by two different `emit` calls, and the subscription
survives the first emit unchanged. -/
theorem c8_counterexample :
    (emit tblC8 10 stC8 "x").2 = [1] ∧
    (emit tblC8 10 stC8 "x").1 = stC8 ∧
    (emit tblC8 10 (emit tblC8 10 stC8 "x").1 "x").2 = [1] :=
  c8_counterexample_internal

/-- C8 (amended): a `once` subscription whose handler completes without
throwing is removed by the first `emit` that delivers to it — regardless of
any subscriptions or unsubscriptions other handlers perform during that
delivery: afterwards it is no longer among the event’s subscribers, and a
later `emit` of the same event does not invoke it.  `GWF` is the
well-formedness every reachable bus state has (ids issued by the
`++this.nextSubscriptionId` counter, map entries pointing at existing
arrays); in the model a handler throws exactly when its program contains
`throwA`, so "completes without throwing" is `throwA` absent from its
program.  Only the no-throw qualification is forced by the bug
(`c8_counterexample`). -/
theorem c8_once_auto_removed (tbl : HTable) (st : BusState) (e : String)
    (fuel fuel2 : Nat) (hw : GWF st) (s : Sub) (hs : s ∈ subsAt st e)
    (honce : s.once = true)
    (hnothrow : HAct.throwA ∉ tbl.getD s.handler [])
    (hdeliv : s.id ∈ (emit tbl fuel st e).2) :
    s.id ∉ (subsAt (emit tbl fuel st e).1 e).map Sub.id ∧
    s.id ∉ (emit tbl fuel2 (emit tbl fuel st e).1 e).2 := by
  rcases emit_delivered_removed tbl st e fuel hw s hs honce hnothrow hdeliv
    with ⟨habs, hev⟩
  have hnotin : s.id ∉ (subsAt (emit tbl fuel st e).1 e).map Sub.id := by
    intro hmem
    rcases List.mem_map.mp hmem with ⟨s2, hs2, hs2id⟩
    apply habs
    rw [subsAt] at hs2
    rcases h2 : List.lookup e (emit tbl fuel st e).1.table with _ | a2 <;>
      rw [h2] at hs2 <;> dsimp only at hs2
    · cases hs2
    · exact ⟨(e, a2), lookup_mem_pair h2, s2, hs2, hs2id⟩
  refine ⟨hnotin, ?_⟩
  have hslt : s.id < st.nextId := by
    rw [subsAt] at hs
    rcases hlk : List.lookup e st.table with _ | a <;> rw [hlk] at hs <;>
      dsimp only at hs
    · cases hs
    · exact hw.2.1 _ (mem_allIds hs)
  exact emit_absent_not_logged tbl _ s.id hev.wf habs
    (by have := hev.nextLe; omega) fuel2 e

/-- Witness for `c8_once_auto_removed`: the spec example — one `once`
subscriber (id 1) and one persistent subscriber (id 2); the first emit
delivers to both, the second only to the persistent one. -/
theorem c8_once_auto_removed_witness :
    (GWF stW ∧
     ({ id := 1, eventName := "x", handler := 0, once := true } : Sub) ∈
       subsAt stW "x" ∧
     HAct.throwA ∉ tblW.getD 0 [] ∧
     (1 : Nat) ∈ (emit tblW 2 stW "x").2) ∧
    (emit tblW 2 stW "x").2 = [1, 2] ∧
    (emit tblW 2 (emit tblW 2 stW "x").1 "x").2 = [2] ∧
    (1 : Nat) ∉ (subsAt (emit tblW 2 stW "x").1 "x").map Sub.id ∧
    (1 : Nat) ∉ (emit tblW 2 (emit tblW 2 stW "x").1 "x").2 := by
  have hw : GWF stW := ⟨by decide, by decide, by decide⟩
  have hmem : ({ id := 1, eventName := "x", handler := 0, once := true } :
      Sub) ∈ subsAt stW "x" := by decide
  have hnt : HAct.throwA ∉ tblW.getD 0 [] := by decide
  have hdel : (1 : Nat) ∈ (emit tblW 2 stW "x").2 := by decide
  refine ⟨⟨hw, hmem, hnt, hdel⟩, rfl, rfl, ?_, ?_⟩
  · exact (c8_once_auto_removed tblW stW "x" 2 2 hw _ hmem rfl hnt hdel).1
  · exact (c8_once_auto_removed tblW stW "x" 2 2 hw _ hmem rfl hnt hdel).2

end GamemodeFramework
